import Mathlib

/-!
Verification of the GenAI_coPilot_mini core against its specification.

The Python sources (src/utils.py, src/rag.py, src/config.py, src/alarms.py)
are shallowly embedded below: strings become `List Char`, Python floats become
exact rationals `ℚ`, dictionaries with `.get`-defaults become structures with
`Option` fields, and the bounded `while` loop of the chunker becomes a
fuel-indexed recursion whose fuel is exactly the source's `max_chunks = 1000`.
-/

set_option linter.unusedVariables false

abbrev Str := List Char

/-- Python whitespace (ASCII): the characters stripped by `str.strip()` and
matched by the regex class `\s`. -/
def isSpacePy (c : Char) : Bool :=
  c == ' ' || c == '\t' || c == '\n' || c == '\r' || c == '\x0b' || c == '\x0c'

/-- Python `str.strip()`: drop leading and trailing whitespace. -/
def stripPy (l : Str) : Str := List.rdropWhile isSpacePy (l.dropWhile isSpacePy)

/-- Python `str.lower()` (ASCII inputs). -/
def lowerPy (l : Str) : Str := l.map Char.toLower

/-- Resolve one Python slice index per CPython semantics: a negative index
counts from the end, then the result is clamped to `[0, len]`. -/
def pyIdx (len : Nat) (i : Int) : Nat :=
  if i < 0 then ((len : Int) + i).toNat else min i.toNat len

/-- Python slice `l[a:b]` (step 1). -/
def pySlice (l : Str) (a b : Int) : Str :=
  (l.take (pyIdx l.length b)).drop (pyIdx l.length a)

/-- Python `str.startswith` (pattern first). -/
def startsWithL : Str → Str → Bool
  | [], _ => true
  | _ :: _, [] => false
  | c :: p, d :: l => c == d && startsWithL p l

/-- Index of the first occurrence of `pat` in `l`, `none` when absent
(Python `str.find` returning -1 becomes `none`). -/
def findSub (pat : Str) : Str → Option Nat
  | [] => if startsWithL pat [] then some 0 else none
  | c :: t =>
    if startsWithL pat (c :: t) then some 0
    else (findSub pat t).map (· + 1)

/-- Python substring test `pat in l`. -/
def containsSub (pat l : Str) : Bool := (findSub pat l).isSome

/-- Worker for Python `str.split(sep)`; the fuel only serves termination and is
large enough to never run out for a non-empty separator. -/
def splitSubF (sep : Str) : Nat → Str → List Str
  | 0, l => [l]
  | fuel + 1, l =>
    match findSub sep l with
    | none => [l]
    | some i => l.take i :: splitSubF sep fuel (l.drop (i + sep.length))

/-- Python `str.split(sep)` for a non-empty separator. -/
def splitSub (sep l : Str) : List Str := splitSubF sep (l.length + 1) l

/-- Python `str.split()` with no argument: split on whitespace runs and drop
empty pieces. -/
def splitWsPy (l : Str) : List Str :=
  (l.splitOnP isSpacePy).filter (fun w => !w.isEmpty)

/-- config.py: `SCORE_THRESHOLD = float(os.getenv("SCORE_THRESHOLD", "-2.0"))`,
modelled at its default. -/
def SCORE_THRESHOLD : ℚ := -2

/-- config.py: `CHUNK_SIZE = 600`. -/
def CHUNK_SIZE : Int := 600

/-- config.py: `CHUNK_OVERLAP = 100`. -/
def CHUNK_OVERLAP : Int := 100

/-- A search-result dictionary as consumed by rag.py and utils.py.  All fields
are read through `.get` with defaults in the source, hence `Option`. -/
structure SearchResult where
  score : Option ℚ := none
  title : Option Str := none
  page : Option Int := none
  text : Str := []
deriving DecidableEq

/-- The fixed industrial keyword set of `RAGSystem._check_retrieval_confidence`. -/
def industrialKeywords : List Str :=
  [("temperature".toList), ("pressure".toList), ("alarm".toList), ("control".toList),
   ("valve".toList), ("sensor".toList), ("calibration".toList), ("maintenance".toList),
   ("safety".toList), ("procedure".toList), ("process".toList), ("emergency".toList),
   ("shutdown".toList), ("troubleshooting".toList), ("psi".toList), ("celsius".toList),
   ("degrees".toList), ("flow".toList), ("pump".toList), ("system".toList),
   ("operating".toList), ("calibrate".toList), ("high".toList), ("low".toList),
   ("normal".toList), ("range".toList), ("setpoint".toList), ("instrumentation".toList)]

/-- The lexical relevance check inside `_check_retrieval_confidence`:
`set(query.lower().split())` intersected with the keyword set is non-empty. -/
def hasIndustrialContext (query : Str) : Bool :=
  (splitWsPy (lowerPy query)).any (fun w => industrialKeywords.contains w)

/-- Embedding of `RAGSystem._check_retrieval_confidence(results, query)`.  The source's
dict-shape guards reject only non-dict values, which the typed embedding
cannot represent; all representable inputs take the main path. -/
def checkRetrievalConfidence (results : List SearchResult) (query : Str) : Bool :=
  match results with
  | [] => false
  | top :: _ =>
    let topScore := top.score.getD 0
    let similarity := if topScore < 0 then 1 / (1 + |topScore|) else topScore
    let baseThreshold := if topScore < 0 then (1 : ℚ) / 2 else SCORE_THRESHOLD
    let threshold := if hasIndustrialContext query then baseThreshold else (4 : ℚ) / 5
    decide (similarity ≥ threshold)

/-- Score normalization of `format_citations`: a negative raw score is treated
as a negated L2 distance and mapped into (0, 1]. -/
def normScore (s : ℚ) : ℚ := if s < 0 then 1 / (1 + |s|) else s

/-- Round half to even (the semantics of Python's `round`), on exact rationals. -/
def roundHalfEven (q : ℚ) : ℤ :=
  let f := ⌊q⌋
  let r := q - (f : ℚ)
  if r < 1 / 2 then f
  else if 1 / 2 < r then f + 1
  else if f % 2 = 0 then f else f + 1

/-- Python `round(q, 3)`. -/
def round3 (q : ℚ) : ℚ := ((roundHalfEven (q * 1000) : ℤ) : ℚ) / 1000

/-- A citation produced by `format_citations`; a `page` of `none` renders as
the source's "N/A" default. -/
structure Citation where
  title : Str
  page : Option Int
  score : ℚ
deriving DecidableEq

/-- utils.py `format_citations`: every (well-formed) result yields a citation
with normalized, 3-decimal-rounded score. -/
def format_citations (results : List SearchResult) : List Citation :=
  results.map (fun r =>
    { title := r.title.getD ("Unknown".toList),
      page := r.page,
      score := round3 (normScore (r.score.getD 0)) })

/- ### Helper lemmas: the gate on a non-empty list, and rounding bounds -/

theorem gate_cons (top : SearchResult) (rest : List SearchResult) (query : Str) :
    checkRetrievalConfidence (top :: rest) query =
      decide ((if top.score.getD 0 < 0 then 1 / (1 + |top.score.getD 0|)
                else top.score.getD 0) ≥
        (if hasIndustrialContext query
          then (if top.score.getD 0 < 0 then (1 : ℚ) / 2 else SCORE_THRESHOLD)
          else (4 : ℚ) / 5)) := rfl

theorem roundHalfEven_ge_floor (q : ℚ) : ⌊q⌋ ≤ roundHalfEven q := by
  unfold roundHalfEven
  dsimp only
  split
  · exact le_refl _
  · split
    · omega
    · split <;> omega

theorem roundHalfEven_le_ceil (q : ℚ) : roundHalfEven q ≤ ⌈q⌉ := by
  unfold roundHalfEven
  dsimp only
  have hfc : ⌊q⌋ ≤ ⌈q⌉ := Int.floor_le_ceil q
  split
  · exact hfc
  · rename_i h1
    have hr : (0 : ℚ) < q - (⌊q⌋ : ℚ) := by
      by_contra hc
      push_neg at hc
      have : q - (⌊q⌋ : ℚ) < 1 / 2 := lt_of_le_of_lt hc (by norm_num)
      exact h1 this
    have hlt : (⌊q⌋ : ℚ) < q := by linarith
    have : ⌊q⌋ < ⌈q⌉ := by
      rw [Int.lt_ceil]
      exact hlt
    split
    · omega
    · split <;> omega

theorem round3_mem_unit {q : ℚ} (h0 : 0 ≤ q) (h1 : q ≤ 1) :
    0 ≤ round3 q ∧ round3 q ≤ 1 := by
  unfold round3
  have hfl : (0 : ℤ) ≤ ⌊q * 1000⌋ := Int.floor_nonneg.mpr (by positivity)
  have hge : (0 : ℤ) ≤ roundHalfEven (q * 1000) :=
    le_trans hfl (roundHalfEven_ge_floor _)
  have hcl : ⌈q * 1000⌉ ≤ 1000 := by
    apply Int.ceil_le.mpr
    push_cast
    linarith
  have hle : roundHalfEven (q * 1000) ≤ 1000 :=
    le_trans (roundHalfEven_le_ceil _) hcl
  constructor
  · positivity
  · rw [div_le_one (by norm_num)]
    exact_mod_cast hle

theorem normScore_neg_mem_unit {s : ℚ} (h : s < 0) :
    0 ≤ normScore s ∧ normScore s ≤ 1 := by
  unfold normScore
  rw [if_pos h]
  have h1 : (1 : ℚ) ≤ 1 + |s| := by
    have := abs_nonneg s
    linarith
  have h0 : (0 : ℚ) < 1 + |s| := by linarith
  constructor
  · positivity
  · rw [div_le_one h0]
    exact h1

theorem normScore_neg_two : normScore (-2) = 1 / 3 := by
  unfold normScore
  rw [if_pos (by norm_num)]
  rw [abs_of_neg (by norm_num : (-2 : ℚ) < 0)]
  norm_num

theorem round3_one_third : round3 (1 / 3) = 333 / 1000 := by
  unfold round3 roundHalfEven
  have h1 : ((1 : ℚ) / 3) * 1000 = 1000 / 3 := by ring
  rw [h1]
  have h2 : ⌊(1000 : ℚ) / 3⌋ = 333 := by
    rw [Int.floor_eq_iff]
    constructor
    · norm_num
    · norm_num
  rw [h2]
  dsimp only
  rw [if_pos (by push_cast; norm_num)]
  push_cast
  norm_num

theorem round3_two_eval : round3 (normScore 2) = 2 := by
  have hn : normScore 2 = 2 := by
    unfold normScore
    rw [if_neg (by norm_num)]
  rw [hn]
  unfold round3 roundHalfEven
  have h1 : ((2 : ℚ)) * 1000 = 2000 := by norm_num
  rw [h1]
  have h2 : ⌊(2000 : ℚ)⌋ = 2000 := by
    rw [Int.floor_eq_iff]
    constructor
    · norm_num
    · norm_num
  rw [h2]
  dsimp only
  rw [if_pos (by push_cast; norm_num)]
  push_cast
  norm_num

theorem round3_small_eval : round3 (normScore (1 / 8000)) = 0 := by
  have hn : normScore (1 / 8000) = 1 / 8000 := by
    unfold normScore
    rw [if_neg (by norm_num)]
  rw [hn]
  unfold round3 roundHalfEven
  have h1 : ((1 : ℚ) / 8000) * 1000 = 1 / 8 := by ring
  rw [h1]
  have h2 : ⌊(1 : ℚ) / 8⌋ = 0 := by
    rw [Int.floor_eq_iff]
    constructor
    · norm_num
    · norm_num
  rw [h2]
  dsimp only
  rw [if_pos (by push_cast; norm_num)]
  push_cast
  norm_num

/- ### Claim C1 -/

/-- C1 counterexample input: a single result with raw score -0.1. -/
def c1Result : SearchResult := { score := some (-1 / 10) }

/-- C1 is false on the code: for top raw score -0.1 and the off-domain query
"unicorns", the threshold is indeed raised to 0.8, but the normalized
similarity 1/(1+0.1) = 10/11 ≈ 0.909 PASSES that threshold, so the gate
returns true, not false as the claim states. -/
theorem c1_counterexample :
    hasIndustrialContext ("unicorns".toList) = false ∧
    checkRetrievalConfidence [c1Result] ("unicorns".toList) = true := by
  have hkw : hasIndustrialContext ("unicorns".toList) = false := by decide
  refine ⟨hkw, ?_⟩
  rw [gate_cons]
  have hs : c1Result.score.getD 0 = -1 / 10 := rfl
  rw [hs, hkw]
  rw [if_pos (by norm_num : (-1 : ℚ) / 10 < 0)]
  simp only [Bool.false_eq_true, if_false, ge_iff_le, decide_eq_true_eq]
  rw [abs_of_neg (by norm_num : (-1 : ℚ) / 10 < 0)]
  norm_num

/-- C1 (amended): for a non-empty result list whose top raw score is -0.1 and
a query with no domain keyword, the gate raises the threshold to 0.8, and the
normalized similarity 1/(1+0.1) = 10/11 exceeds it, so the gate returns true
(not false). -/
theorem c1_amended (results : List SearchResult) (query : Str)
    (top : SearchResult) (rest : List SearchResult)
    (hres : results = top :: rest)
    (hscore : top.score = some (-1 / 10))
    (hkw : hasIndustrialContext query = false) :
    checkRetrievalConfidence results query = true := by
  subst hres
  rw [gate_cons, hscore, hkw]
  have hg : (some ((-1 : ℚ) / 10)).getD 0 = -1 / 10 := rfl
  rw [hg]
  rw [if_pos (by norm_num : (-1 : ℚ) / 10 < 0)]
  simp only [Bool.false_eq_true, if_false, ge_iff_le, decide_eq_true_eq]
  rw [abs_of_neg (by norm_num : (-1 : ℚ) / 10 < 0)]
  norm_num

/-- Witness for `c1_amended` at the concrete input of the claim. -/
theorem c1_amended_witness :
    c1Result.score = some (-1 / 10) ∧
    hasIndustrialContext ("unicorns".toList) = false ∧
    checkRetrievalConfidence [c1Result] ("unicorns".toList) = true :=
  ⟨rfl, by decide,
    c1_amended [c1Result] ("unicorns".toList) c1Result [] rfl rfl (by decide)⟩

/- ### Claim C2 -/

/-- C2: with at least one domain keyword in the query, the gate computes
similarity `1/(1+|top|)` against base threshold 0.5 when the top score is
negative, and otherwise compares the top score itself against the configured
threshold (default -2); in particular a -0.1 top score is judged confident. -/
theorem c2_confidence_gate (results : List SearchResult) (query : Str)
    (top : SearchResult) (rest : List SearchResult)
    (hres : results = top :: rest)
    (hkw : hasIndustrialContext query = true) :
    (top.score.getD 0 < 0 →
      (checkRetrievalConfidence results query = true ↔
        1 / 2 ≤ 1 / (1 + |top.score.getD 0|))) ∧
    (0 ≤ top.score.getD 0 →
      (checkRetrievalConfidence results query = true ↔
        SCORE_THRESHOLD ≤ top.score.getD 0)) ∧
    (top.score.getD 0 = -1 / 10 → checkRetrievalConfidence results query = true) := by
  subst hres
  rw [gate_cons, hkw]
  simp only [if_true, ge_iff_le, decide_eq_true_eq]
  refine ⟨?_, ?_, ?_⟩
  · intro hneg
    rw [if_pos hneg, if_pos hneg]
  · intro hpos
    rw [if_neg (not_lt.mpr hpos), if_neg (not_lt.mpr hpos)]
  · intro hval
    rw [hval]
    rw [if_pos (by norm_num : (-1 : ℚ) / 10 < 0), if_pos (by norm_num : (-1 : ℚ) / 10 < 0)]
    rw [abs_of_neg (by norm_num : (-1 : ℚ) / 10 < 0)]
    norm_num

/-- Witness for `c2_confidence_gate`: raw score -0.1 with query "temperature"
is judged confident. -/
theorem c2_confidence_gate_witness :
    hasIndustrialContext ("temperature".toList) = true ∧
    c1Result.score.getD 0 = -1 / 10 ∧
    checkRetrievalConfidence [c1Result] ("temperature".toList) = true := by
  have h := c2_confidence_gate [c1Result] ("temperature".toList) c1Result [] rfl (by decide)
  exact ⟨by decide, rfl, h.2.2 rfl⟩

/- ### Claim C3 -/

/-- C3 counterexample input: a non-negative raw score above 1. -/
def c3ResultA : SearchResult := { score := some 2 }

/-- C3 counterexample input: a small positive raw score that rounding alters. -/
def c3ResultB : SearchResult := { score := some (1 / 8000) }

/-- C3 is false on the code: a non-negative raw score passes through the
normalization untouched, so raw score 2.0 yields citation score 2.0 ∉ [0,1];
moreover the pass-through is still rounded to 3 decimals, so raw score
1/8000 = 0.000125 yields 0.0 rather than itself. -/
theorem c3_counterexample :
    (format_citations [c3ResultA, c3ResultB]).map Citation.score = [2, 0] ∧
    ¬((2 : ℚ) ≤ 1) ∧ (1 : ℚ) / 8000 ≠ 0 := by
  refine ⟨?_, by norm_num, by norm_num⟩
  unfold format_citations c3ResultA c3ResultB
  simp only [List.map_cons, List.map_nil]
  have hA : (some (2 : ℚ)).getD 0 = 2 := rfl
  have hB : (some ((1 : ℚ) / 8000)).getD 0 = 1 / 8000 := rfl
  rw [hA, hB, round3_two_eval, round3_small_eval]

/-- C3 (amended): every citation's score is `round3 (normScore raw)`; for a
negative raw score this lies in [0,1] (and -2 maps to 0.333); a non-negative
raw score passes through up to 3-decimal rounding, so the output lies in
[0,1] whenever the raw score itself does. -/
theorem c3_amended (results : List SearchResult) (c : Citation)
    (hc : c ∈ format_citations results) :
    ∃ r ∈ results,
      c.score = round3 (normScore (r.score.getD 0)) ∧
      (r.score.getD 0 < 0 → 0 ≤ c.score ∧ c.score ≤ 1) ∧
      (0 ≤ r.score.getD 0 → r.score.getD 0 ≤ 1 → 0 ≤ c.score ∧ c.score ≤ 1) ∧
      (r.score.getD 0 = -2 → c.score = 333 / 1000) := by
  unfold format_citations at hc
  rw [List.mem_map] at hc
  obtain ⟨r, hr, hcr⟩ := hc
  refine ⟨r, hr, ?_, ?_, ?_, ?_⟩
  · rw [← hcr]
  · intro hneg
    rw [← hcr]
    dsimp only
    obtain ⟨h0, h1⟩ := normScore_neg_mem_unit hneg
    exact round3_mem_unit h0 h1
  · intro h0 h1
    rw [← hcr]
    dsimp only
    have hn : normScore (r.score.getD 0) = r.score.getD 0 := by
      unfold normScore
      rw [if_neg (not_lt.mpr h0)]
    rw [hn]
    exact round3_mem_unit h0 h1
  · intro hval
    rw [← hcr]
    dsimp only
    rw [hval, normScore_neg_two, round3_one_third]

/-- C3 witness input: the -2 example from the spec. -/
def c3ResultC : SearchResult := { score := some (-2) }

/-- C3 witness citation: what `format_citations` produces for `c3ResultC`. -/
def c3CitC : Citation :=
  { title := ("Unknown".toList), page := none,
    score := round3 (normScore (c3ResultC.score.getD 0)) }

/-- Witness for `c3_amended` at the -2 example. -/
theorem c3_amended_witness :
    ∃ r ∈ ([c3ResultC] : List SearchResult),
      c3CitC.score = round3 (normScore (r.score.getD 0)) ∧
      (r.score.getD 0 < 0 → 0 ≤ c3CitC.score ∧ c3CitC.score ≤ 1) ∧
      (0 ≤ r.score.getD 0 → r.score.getD 0 ≤ 1 → 0 ≤ c3CitC.score ∧ c3CitC.score ≤ 1) ∧
      (r.score.getD 0 = -2 → c3CitC.score = 333 / 1000) :=
  c3_amended [c3ResultC] c3CitC (List.mem_singleton.mpr rfl)

/- ### Claim C10 -/

/-- C10: under the default configured threshold -2, any non-empty result list
whose top score is non-negative is judged confident for a domain query; a
missing score field defaults to 0 and takes exactly this branch. -/
theorem c10_nonneg_confident (results : List SearchResult) (query : Str)
    (top : SearchResult) (rest : List SearchResult)
    (hres : results = top :: rest)
    (hkw : hasIndustrialContext query = true) :
    (0 ≤ top.score.getD 0 → checkRetrievalConfidence results query = true) ∧
    (top.score = none → checkRetrievalConfidence results query = true) := by
  subst hres
  have main : 0 ≤ top.score.getD 0 →
      checkRetrievalConfidence (top :: rest) query = true := by
    intro hpos
    rw [gate_cons, hkw]
    simp only [if_true, ge_iff_le, decide_eq_true_eq]
    rw [if_neg (not_lt.mpr hpos), if_neg (not_lt.mpr hpos)]
    unfold SCORE_THRESHOLD
    linarith
  constructor
  · intro hpos
    exact main hpos
  · intro hnone
    apply main
    rw [hnone]
    norm_num

/-- C10 witness input: the score field is entirely absent. -/
def c10Result : SearchResult := { score := none }

/-- Witness for `c10_nonneg_confident` at a result with no score field. -/
theorem c10_nonneg_confident_witness :
    c10Result.score = none ∧
    hasIndustrialContext ("temperature".toList) = true ∧
    checkRetrievalConfidence [c10Result] ("temperature".toList) = true := by
  have h := c10_nonneg_confident [c10Result] ("temperature".toList) c10Result [] rfl (by decide)
  exact ⟨rfl, by decide, h.2 rfl⟩

/- ### Text chunker (utils.py chunk_text) -/

/-- Punctuation class of the sentence-boundary regex `[.!?]\s+`. -/
def isPunct (c : Char) : Bool := c == '.' || c == '!' || c == '?'

/-- Worker for `matchEnds`; the fuel only serves structural termination and
is always ample (every step consumes at least one character). -/
def matchEndsF : Nat → Str → Nat → List Nat
  | 0, _, _ => []
  | _, [], _ => []
  | _, [_], _ => []
  | fuel + 1, c :: d :: rest, pos =>
    if isPunct c && isSpacePy d then
      let ws := (rest.takeWhile isSpacePy).length
      (pos + 2 + ws) :: matchEndsF fuel (rest.drop ws) (pos + 2 + ws)
    else
      matchEndsF fuel (d :: rest) (pos + 1)

/-- End positions of every match of the regex `[.!?]\s+` in a segment,
offset by `pos`, scanning left to right without overlap exactly as
`re.finditer` does (`\s+` is greedy). -/
def matchEnds (seg : Str) (pos : Nat) : List Nat := matchEndsF (seg.length + 1) seg pos

/-- The boundary snap of `chunk_text`: search the last 50 characters before
the tentative end for a sentence boundary and snap to the last match. -/
def snapEnd (text : Str) (start end0 : Int) : Int :=
  let ss := max start (end0 - 50)
  let seg := pySlice text ss end0
  match (matchEnds seg 0).getLast? with
  | some m => ss + (m : Int)
  | none => end0

/-- The end position used by one iteration of `chunk_text`:
`min (start + chunk_size) len`, snapped to a sentence boundary when the
window does not already reach the end of the text. -/
def chunkEnd (text : Str) (cs start : Int) : Int :=
  let len : Int := text.length
  let end0 := min (start + cs) len
  if end0 < len then snapEnd text start end0 else end0

/-- The advance of one `chunk_text` iteration: `new_start = end - overlap`,
replaced by the forced progress `start + max 1 (chunk_size // 2)` whenever it
fails to strictly increase `start` (Python `//` is floor division). -/
def chunkNext (text : Str) (cs ov start : Int) : Int :=
  if chunkEnd text cs start - ov ≤ start
  then start + max 1 (Int.fdiv cs 2)
  else chunkEnd text cs start - ov

/-- One iteration of the `while` loop of `chunk_text`: the next `start`,
the extended chunk list, and whether the loop `break`s. -/
def chunkStep (text : Str) (cs ov : Int) (start : Int) (chunks : List Str) :
    Int × List Str × Bool :=
  let e := chunkEnd text cs start
  let chunk := stripPy (pySlice text start e)
  let chunks1 := if chunk.isEmpty then chunks else chunks ++ [chunk]
  let ns := chunkNext text cs ov start
  if (text.length : Int) - ns < Int.fdiv cs 2 then
    let remaining := stripPy (pySlice text ns (text.length : Int))
    (ns,
     (if remaining.isEmpty || chunks1.contains remaining then chunks1
      else chunks1 ++ [remaining]),
     true)
  else
    (ns, chunks1, false)

/-- The `while` loop of `chunk_text`; the fuel plays the role of
`max_chunks - chunk_count` with `max_chunks = 1000` in the source. -/
def chunkLoop (text : Str) (cs ov : Int) : Nat → Int → List Str → List Str
  | 0, _, chunks => chunks
  | fuel + 1, start, chunks =>
    if start < (text.length : Int) then
      let s := chunkStep text cs ov start chunks
      if s.2.2 then s.2.1 else chunkLoop text cs ov fuel s.1 s.2.1
    else chunks

/-- utils.py `chunk_text(text, chunk_size, overlap)`.  Python's defaulting
`chunk_size or Config.CHUNK_SIZE` replaces a falsy (0/None) argument with the
config value, so 0 selects the default here exactly as in the source. -/
def chunk_text (text : Str) (csIn ovIn : Int) : List Str :=
  let cs := if csIn = 0 then CHUNK_SIZE else csIn
  let ov := if ovIn = 0 then CHUNK_OVERLAP else ovIn
  if (stripPy text).isEmpty then []
  else
    let t := stripPy text
    if (t.length : Int) ≤ cs then [t]
    else chunkLoop t cs ov 1000 0 []

/-- Executed loop-iteration count of `chunk_text`, mirroring `chunkLoop`
step for step (for the safety-bound claim). -/
def chunkIters (text : Str) (cs ov : Int) : Nat → Int → List Str → Nat
  | 0, _, _ => 0
  | fuel + 1, start, chunks =>
    if start < (text.length : Int) then
      let s := chunkStep text cs ov start chunks
      if s.2.2 then 1 else 1 + chunkIters text cs ov fuel s.1 s.2.1
    else 0

/-- Loop iterations executed by `chunk_text` on a given input. -/
def chunk_text_iters (text : Str) (csIn ovIn : Int) : Nat :=
  let cs := if csIn = 0 then CHUNK_SIZE else csIn
  let ov := if ovIn = 0 then CHUNK_OVERLAP else ovIn
  if (stripPy text).isEmpty then 0
  else
    let t := stripPy text
    if (t.length : Int) ≤ cs then 0
    else chunkIters t cs ov 1000 0 []

/- ### Helper lemmas for the chunker -/

theorem chunkStep_fst (text : Str) (cs ov start : Int) (chunks : List Str) :
    (chunkStep text cs ov start chunks).1 = chunkNext text cs ov start := by
  unfold chunkStep
  dsimp only
  split
  · rfl
  · rfl

theorem chunkStep_snd (text : Str) (cs ov start : Int) (chunks : List Str) :
    (chunkStep text cs ov start chunks).2.1 =
      (let chunk := stripPy (pySlice text start (chunkEnd text cs start))
       let chunks1 := if chunk.isEmpty then chunks else chunks ++ [chunk]
       let ns := chunkNext text cs ov start
       if (text.length : Int) - ns < Int.fdiv cs 2 then
         (let remaining := stripPy (pySlice text ns (text.length : Int))
          if remaining.isEmpty || chunks1.contains remaining then chunks1
          else chunks1 ++ [remaining])
       else chunks1) := by
  unfold chunkStep
  dsimp only
  split
  · rfl
  · rfl

theorem chunkStep_brk_iff (text : Str) (cs ov start : Int) (chunks : List Str) :
    (chunkStep text cs ov start chunks).2.2 = true ↔
      (text.length : Int) - chunkNext text cs ov start < Int.fdiv cs 2 := by
  unfold chunkStep
  dsimp only
  split
  · rename_i h
    exact iff_of_true rfl h
  · rename_i h
    exact iff_of_false (by simp) h

theorem chunkNext_gt (text : Str) (cs ov start : Int) :
    start < chunkNext text cs ov start := by
  unfold chunkNext
  split
  · have h1 : (1 : Int) ≤ max 1 (Int.fdiv cs 2) := le_max_left _ _
    omega
  · omega

theorem chunkStep_fst_gt (text : Str) (cs ov start : Int) (chunks : List Str) :
    start < (chunkStep text cs ov start chunks).1 := by
  rw [chunkStep_fst]
  exact chunkNext_gt text cs ov start

theorem chunkIters_le_fuel (text : Str) (cs ov : Int) :
    ∀ (fuel : Nat) (start : Int) (chunks : List Str),
      chunkIters text cs ov fuel start chunks ≤ fuel := by
  intro fuel
  induction fuel with
  | zero => intro start chunks; simp [chunkIters]
  | succ n ih =>
    intro start chunks
    unfold chunkIters
    dsimp only
    split
    · split
      · omega
      · have h := ih (chunkStep text cs ov start chunks).1
          (chunkStep text cs ov start chunks).2.1
        omega
    · omega

/- ### Claim C4 -/

/-- C4: `chunk_text` always terminates with at most 1000 loop iterations;
every iteration strictly increases `start`, and exactly when the normal
advance `end - overlap` does not progress, `start` advances by
`max 1 (chunk_size // 2)`. -/
theorem c4_termination (text : Str) (csIn ovIn : Int) :
    chunk_text_iters text csIn ovIn ≤ 1000 ∧
    (∀ (cs ov start : Int) (chunks : List Str),
      start < (chunkStep text cs ov start chunks).1) ∧
    (∀ (cs ov start : Int) (chunks : List Str),
      chunkEnd text cs start - ov ≤ start →
      (chunkStep text cs ov start chunks).1 = start + max 1 (Int.fdiv cs 2)) := by
  refine ⟨?_, ?_, ?_⟩
  · unfold chunk_text_iters
    dsimp only
    repeat' split
    all_goals first
      | omega
      | exact chunkIters_le_fuel _ _ _ _ _ _
  · intro cs ov start chunks
    exact chunkStep_fst_gt text cs ov start chunks
  · intro cs ov start chunks h
    rw [chunkStep_fst]
    unfold chunkNext
    rw [if_pos h]

/-- C4 witness text (plain letters, no sentence boundary). -/
def c4Text : Str := ("abcdefghijklmno".toList)

/-- Witness for `c4_termination` at a concrete input where the normal
advance fails to progress (overlap 20 exceeds the window). -/
theorem c4_termination_witness :
    chunk_text_iters c4Text 10 20 ≤ 1000 ∧
    0 < (chunkStep c4Text 10 20 0 []).1 ∧
    (chunkEnd c4Text 10 0 - 20 ≤ 0) ∧
    (chunkStep c4Text 10 20 0 []).1 = 0 + max 1 (Int.fdiv 10 2) := by
  have h := c4_termination c4Text 10 20
  exact ⟨h.1, h.2.1 10 20 0 [], by decide, h.2.2 10 20 0 [] (by decide)⟩

/- ### Strip and slice lemmas -/

theorem stripPy_length_le (l : Str) : (stripPy l).length ≤ l.length := by
  unfold stripPy
  have h1 : (List.rdropWhile isSpacePy (l.dropWhile isSpacePy)).length ≤
      (l.dropWhile isSpacePy).length :=
    ( List.rdropWhile_prefix _ _).length_le
  have h2 : (l.dropWhile isSpacePy).length ≤ l.length :=
    (List.dropWhile_suffix _).length_le
  omega

theorem stripPy_nonempty_nonws (l : Str) (h : stripPy l ≠ []) :
    ∃ ch ∈ stripPy l, isSpacePy ch = false := by
  have hlast := List.rdropWhile_last_not isSpacePy (l.dropWhile isSpacePy) h
  refine ⟨(stripPy l).getLast h, List.getLast_mem h, ?_⟩
  unfold stripPy at hlast ⊢
  simpa using hlast

theorem pySlice_length_le (l : Str) (a b : Int) (ha : 0 ≤ a) (hb : 0 ≤ b) :
    ((pySlice l a b).length : Int) ≤ max 0 (b - a) := by
  unfold pySlice pyIdx
  rw [if_neg (not_lt.mpr hb), if_neg (not_lt.mpr ha)]
  simp only [List.length_drop, List.length_take]
  omega

theorem pySlice_length_eq (l : Str) (a b : Int) (ha : 0 ≤ a) (hab : a ≤ b)
    (hbl : b ≤ (l.length : Int)) :
    ((pySlice l a b).length : Int) = b - a := by
  unfold pySlice pyIdx
  rw [if_neg (not_lt.mpr (le_trans ha hab)), if_neg (not_lt.mpr ha)]
  simp only [List.length_drop, List.length_take]
  omega

theorem matchEndsF_bounds :
    ∀ (fuel : Nat) (seg : Str) (pos : Nat), ∀ x ∈ matchEndsF fuel seg pos,
      pos + 2 ≤ x ∧ x ≤ pos + seg.length := by
  intro fuel
  induction fuel with
  | zero => intro seg pos x hx; simp [matchEndsF] at hx
  | succ n ih =>
    intro seg pos x hx
    match seg with
    | [] => simp [matchEndsF] at hx
    | [c] => simp [matchEndsF] at hx
    | c :: d :: rest =>
      unfold matchEndsF at hx
      dsimp only at hx
      split at hx
      · rcases List.mem_cons.mp hx with h | h
        · have hws : (rest.takeWhile isSpacePy).length ≤ rest.length :=
            ( List.takeWhile_prefix _).length_le
          subst h
          simp only [List.length_cons]
          omega
        · have hb := ih _ _ x h
          have hdl : (rest.drop (rest.takeWhile isSpacePy).length).length =
              rest.length - (rest.takeWhile isSpacePy).length := List.length_drop _ _
          simp only [List.length_cons]
          rw [hdl] at hb
          omega
      · have hb := ih _ _ x hx
        simp only [List.length_cons] at hb ⊢
        omega

theorem matchEnds_bounds (seg : Str) (pos : Nat) :
    ∀ x ∈ matchEnds seg pos, pos + 2 ≤ x ∧ x ≤ pos + seg.length :=
  matchEndsF_bounds _ seg pos

theorem snapEnd_bounds (text : Str) (start end0 : Int) (h0 : 0 ≤ start)
    (hse : start ≤ end0) (hl : end0 ≤ (text.length : Int)) :
    start ≤ snapEnd text start end0 ∧ snapEnd text start end0 ≤ end0 := by
  unfold snapEnd
  dsimp only
  have hss0 : 0 ≤ max start (end0 - 50) := le_trans h0 (le_max_left _ _)
  have hsse : max start (end0 - 50) ≤ end0 := max_le hse (by omega)
  have hseg : ((pySlice text (max start (end0 - 50)) end0).length : Int) =
      end0 - max start (end0 - 50) :=
    pySlice_length_eq text _ _ hss0 hsse hl
  split
  · rename_i m hm
    have hmem := List.mem_of_getLast?_eq_some hm
    have hb := matchEnds_bounds _ _ m hmem
    constructor
    · have h1 : start ≤ max start (end0 - 50) := le_max_left _ _
      omega
    · have h2 : m ≤ (pySlice text (max start (end0 - 50)) end0).length := by
        have := hb.2
        omega
      omega
  · exact ⟨hse, le_refl _⟩

theorem chunkEnd_bounds (text : Str) (cs start : Int) (hcs : 0 ≤ cs)
    (h0 : 0 ≤ start) (hsl : start < (text.length : Int)) :
    start ≤ chunkEnd text cs start ∧ chunkEnd text cs start ≤ start + cs ∧
      chunkEnd text cs start ≤ (text.length : Int) := by
  unfold chunkEnd
  dsimp only
  have h1 : start ≤ min (start + cs) (text.length : Int) := by omega
  have h2 : min (start + cs) (text.length : Int) ≤ start + cs := min_le_left _ _
  have h3 : min (start + cs) (text.length : Int) ≤ (text.length : Int) := min_le_right _ _
  split
  · have hb := snapEnd_bounds text start (min (start + cs) (text.length : Int)) h0 h1 h3
    exact ⟨hb.1, le_trans hb.2 h2, le_trans hb.2 h3⟩
  · exact ⟨h1, h2, h3⟩

/- ### Per-step chunk shape -/

theorem chunkStep_all (text : Str) (cs ov start : Int) (chunks : List Str)
    (hcs : 1 ≤ cs) (h0 : 0 ≤ start) (hsl : start < (text.length : Int)) :
    ∀ c ∈ (chunkStep text cs ov start chunks).2.1,
      c ∈ chunks ∨
      (c ≠ [] ∧ (∃ ch ∈ c, isSpacePy ch = false) ∧ (c.length : Int) ≤ cs) := by
  intro c hc
  have he := chunkEnd_bounds text cs start (by omega) h0 hsl
  have hfd : Int.fdiv cs 2 = cs / 2 := Int.fdiv_eq_ediv cs (by omega)
  have hchunkP : ¬ (stripPy (pySlice text start (chunkEnd text cs start))).isEmpty →
      stripPy (pySlice text start (chunkEnd text cs start)) ≠ [] ∧
      (∃ ch ∈ stripPy (pySlice text start (chunkEnd text cs start)), isSpacePy ch = false) ∧
      ((stripPy (pySlice text start (chunkEnd text cs start))).length : Int) ≤ cs := by
    intro hne
    have hne' : stripPy (pySlice text start (chunkEnd text cs start)) ≠ [] := by
      intro hh
      exact hne (by rw [hh]; rfl)
    refine ⟨hne', stripPy_nonempty_nonws _ hne', ?_⟩
    have hs1 : ((stripPy (pySlice text start (chunkEnd text cs start))).length : Int) ≤
        ((pySlice text start (chunkEnd text cs start)).length : Int) := by
      exact_mod_cast stripPy_length_le _
    have hs2 := pySlice_length_le text start (chunkEnd text cs start) h0 (le_trans h0 he.1)
    omega
  have hremP : ∀ ns : Int, 0 ≤ ns → (text.length : Int) - ns < Int.fdiv cs 2 →
      ¬ (stripPy (pySlice text ns (text.length : Int))).isEmpty →
      stripPy (pySlice text ns (text.length : Int)) ≠ [] ∧
      (∃ ch ∈ stripPy (pySlice text ns (text.length : Int)), isSpacePy ch = false) ∧
      ((stripPy (pySlice text ns (text.length : Int))).length : Int) ≤ cs := by
    intro ns hns hlt hne
    have hne' : stripPy (pySlice text ns (text.length : Int)) ≠ [] := by
      intro hh
      exact hne (by rw [hh]; rfl)
    refine ⟨hne', stripPy_nonempty_nonws _ hne', ?_⟩
    have hs1 : ((stripPy (pySlice text ns (text.length : Int))).length : Int) ≤
        ((pySlice text ns (text.length : Int)).length : Int) := by
      exact_mod_cast stripPy_length_le _
    have hs2 := pySlice_length_le text ns (text.length : Int) hns (by positivity)
    omega
  have hns0 : 0 ≤ chunkNext text cs ov start := le_of_lt (lt_of_le_of_lt h0 (chunkNext_gt _ _ _ _))
  rw [chunkStep_snd] at hc
  dsimp only at hc
  set ch1 := (if (stripPy (pySlice text start (chunkEnd text cs start))).isEmpty
      then chunks
      else chunks ++ [stripPy (pySlice text start (chunkEnd text cs start))]) with hch1
  have hchunks1 : ∀ x ∈ ch1,
      x ∈ chunks ∨
      (x ≠ [] ∧ (∃ ch ∈ x, isSpacePy ch = false) ∧ (x.length : Int) ≤ cs) := by
    rw [hch1]
    intro x hx
    split at hx
    · exact Or.inl hx
    · rename_i hchunk
      rcases List.mem_append.mp hx with h | h
      · exact Or.inl h
      · have hxq := List.mem_singleton.mp h
        subst hxq
        exact Or.inr (hchunkP hchunk)
  split at hc
  · rename_i hbrk
    split at hc
    · exact hchunks1 c hc
    · rename_i hcond
      rcases List.mem_append.mp hc with h | h
      · exact hchunks1 c h
      · have hcq := List.mem_singleton.mp h
        subst hcq
        refine Or.inr (hremP _ hns0 hbrk ?_)
        simp only [Bool.or_eq_true, not_or] at hcond
        exact fun hh => hcond.1 hh
  · exact hchunks1 c hc

theorem chunkLoop_all (text : Str) (cs ov : Int) (hcs : 1 ≤ cs) :
    ∀ (fuel : Nat) (start : Int) (chunks : List Str), 0 ≤ start →
      (∀ c ∈ chunks,
        c ≠ [] ∧ (∃ ch ∈ c, isSpacePy ch = false) ∧ (c.length : Int) ≤ cs) →
      ∀ c ∈ chunkLoop text cs ov fuel start chunks,
        c ≠ [] ∧ (∃ ch ∈ c, isSpacePy ch = false) ∧ (c.length : Int) ≤ cs := by
  intro fuel
  induction fuel with
  | zero =>
    intro start chunks h0 hP c hc
    exact hP c hc
  | succ n ih =>
    intro start chunks h0 hP c hc
    unfold chunkLoop at hc
    dsimp only at hc
    split at hc
    · rename_i hsl
      have hstep := chunkStep_all text cs ov start chunks hcs h0 hsl
      split at hc
      · rcases hstep c hc with h | h
        · exact hP c h
        · exact h
      · refine ih _ _ ?_ ?_ c hc
        · have := chunkStep_fst_gt text cs ov start chunks
          omega
        · intro c' hc'
          rcases hstep c' hc' with h | h
          · exact hP c' h
          · exact h
    · exact hP c hc

/- ### Claim C5 -/

/-- C5: every chunk returned by `chunk_text` (for a positive chunk size) is
non-empty, contains a non-whitespace character, and is no longer than
`chunk_size` (so the "small boundary slack" is in fact 0); whitespace-only
text yields `[]`, and short text yields exactly the single trimmed text. -/
theorem c5_chunk_shape (text : Str) (csIn ovIn : Int) (hcs : 1 ≤ csIn) :
    (∀ c ∈ chunk_text text csIn ovIn,
        c ≠ [] ∧ (∃ ch ∈ c, isSpacePy ch = false) ∧ (c.length : Int) ≤ csIn) ∧
    (stripPy text = [] → chunk_text text csIn ovIn = []) ∧
    (stripPy text ≠ [] → ((stripPy text).length : Int) ≤ csIn →
        chunk_text text csIn ovIn = [stripPy text]) := by
  have hcs0 : ¬ (csIn = 0) := by omega
  refine ⟨?_, ?_, ?_⟩
  · intro c hc
    unfold chunk_text at hc
    dsimp only at hc
    rw [if_neg hcs0] at hc
    split at hc
    · simp at hc
    · rename_i hne
      split at hc
      · have hcq := List.mem_singleton.mp hc
        subst hcq
        refine ⟨?_, ?_, ?_⟩
        · intro hh
          rw [hh] at hne
          simp at hne
        · apply stripPy_nonempty_nonws
          intro hh
          rw [hh] at hne
          simp at hne
        · rename_i hlen
          exact hlen
      · exact chunkLoop_all (stripPy text) csIn _ hcs 1000 0 [] (le_refl 0)
          (by intro c' hc'; simp at hc') c hc
  · intro h
    unfold chunk_text
    dsimp only
    rw [if_neg hcs0]
    rw [if_pos (by rw [h]; rfl)]
  · intro hne hlen
    unfold chunk_text
    dsimp only
    rw [if_neg hcs0]
    rw [if_neg (by simpa using hne)]
    rw [if_pos hlen]

/-- C5 witness text. -/
def c5Text : Str := ("  hello world  ".toList)

/-- Witness for `c5_chunk_shape` at a short concrete text with the default
chunk size 600 passed explicitly. -/
theorem c5_chunk_shape_witness :
    (1 : Int) ≤ 600 ∧
    ((∀ c ∈ chunk_text c5Text 600 100,
        c ≠ [] ∧ (∃ ch ∈ c, isSpacePy ch = false) ∧ (c.length : Int) ≤ 600) ∧
     (stripPy c5Text = [] → chunk_text c5Text 600 100 = []) ∧
     (stripPy c5Text ≠ [] → ((stripPy c5Text).length : Int) ≤ 600 →
        chunk_text c5Text 600 100 = [stripPy c5Text])) :=
  ⟨by decide, c5_chunk_shape c5Text 600 100 (by decide)⟩

/- ### Coverage of the trimmed text by the returned chunks (claim C6) -/

/-- Position `i` of `t` is covered: some chunk equals a contiguous slice of
`t` that contains position `i`. -/
def covered (chunks : List Str) (t : Str) (i : Nat) : Prop :=
  ∃ c ∈ chunks, ∃ a b : Nat, c = (t.take b).drop a ∧ a ≤ i ∧ i < b

theorem covered_append (chunks ext : List Str) (t : Str) (i : Nat)
    (h : covered chunks t i) : covered (chunks ++ ext) t i := by
  obtain ⟨c, hc, a, b, h1, h2, h3⟩ := h
  exact ⟨c, List.mem_append_left _ hc, a, b, h1, h2, h3⟩

theorem rdropWhile_append_rtakeWhile (p : Char → Bool) (l : Str) :
    List.rdropWhile p l ++ List.rtakeWhile p l = l := by
  show (l.reverse.dropWhile p).reverse ++ (l.reverse.takeWhile p).reverse = l
  rw [← List.reverse_append, List.takeWhile_append_dropWhile, List.reverse_reverse]

theorem stripPy_eq_slice (l : Str) :
    ∃ a b : Nat, b ≤ l.length ∧ stripPy l = (l.take b).drop a ∧
      (∀ i : Nat, i < l.length → isSpacePy (l.getD i ' ') = false → a ≤ i ∧ i < b) := by
  have hstrip : stripPy l = List.rdropWhile isSpacePy (l.dropWhile isSpacePy) := rfl
  set A := l.takeWhile isSpacePy with hA
  set B := l.dropWhile isSpacePy with hB
  set S := List.rdropWhile isSpacePy B with hS
  set T := List.rtakeWhile isSpacePy B with hT
  have hdecomp : A ++ B = l := List.takeWhile_append_dropWhile _ _
  have hpre : S <+: B := List.rdropWhile_prefix _ _
  have hstake : S = B.take S.length := List.prefix_iff_eq_take.mp hpre
  have hslen : S.length ≤ B.length := hpre.length_le
  have hlsum : A.length + B.length = l.length := by
    conv_rhs => rw [← hdecomp]
    rw [List.length_append]
  have hdrop : B = l.drop A.length := by
    conv_rhs => rw [← hdecomp]
    rw [List.drop_left]
  have hBdecomp : S ++ T = B := rdropWhile_append_rtakeWhile _ _
  have hBsum : S.length + T.length = B.length := by
    conv_rhs => rw [← hBdecomp]
    rw [List.length_append]
  refine ⟨A.length, A.length + S.length, by omega, ?_, ?_⟩
  · rw [hstrip]
    conv_lhs => rw [hstake, hdrop]
    rw [List.take_drop]
  · intro i hi hnws
    constructor
    · by_contra hlt
      push_neg at hlt
      have h1 : l.getD i ' ' = A.getD i ' ' := by
        conv_lhs => rw [← hdecomp]
        rw [List.getD_eq_getElem _ _ (by rw [List.length_append]; omega),
            List.getD_eq_getElem _ _ hlt]
        exact List.getElem_append_left hlt
      have h2 : A.getD i ' ' ∈ A := by
        rw [List.getD_eq_getElem _ _ hlt]
        exact List.getElem_mem _
      rw [hA] at h2
      have h3 := List.mem_takeWhile_imp h2
      rw [h1] at hnws
      rw [hA] at hnws
      rw [h3] at hnws
      exact Bool.true_eq_false.mp hnws
    · by_contra hge
      push_neg at hge
      have hj : i - A.length < B.length := by omega
      have h1 : l.getD i ' ' = B.getD (i - A.length) ' ' := by
        conv_lhs => rw [← hdecomp]
        rw [List.getD_eq_getElem _ _ (by rw [List.length_append]; omega),
            List.getD_eq_getElem _ _ hj]
        exact List.getElem_append_right (by omega)
      have hjT : i - A.length - S.length < T.length := by omega
      have hgetB : B.getD (i - A.length) ' ' = T.getD (i - A.length - S.length) ' ' := by
        conv_lhs => rw [← hBdecomp]
        rw [List.getD_eq_getElem _ _ (by rw [List.length_append]; omega),
            List.getD_eq_getElem _ _ hjT]
        exact List.getElem_append_right (by omega)
      have h2 : B.getD (i - A.length) ' ' ∈ T := by
        rw [hgetB, List.getD_eq_getElem _ _ hjT]
        exact List.getElem_mem _
      rw [hT] at h2
      have h3 := List.mem_rtakeWhile_imp h2
      rw [h1] at hnws
      rw [h3] at hnws
      exact Bool.true_eq_false.mp hnws

theorem strip_slice_cov (t : Str) (s e : Int) (hs : 0 ≤ s) (hse : s ≤ e)
    (hel : e ≤ (t.length : Int)) :
    ∃ a b : Nat, stripPy (pySlice t s e) = (t.take b).drop a ∧
      ∀ i : Nat, s ≤ (i : Int) → (i : Int) < e →
        isSpacePy (t.getD i ' ') = false → a ≤ i ∧ i < b := by
  obtain ⟨a', b', hb', heq, hpos⟩ := stripPy_eq_slice (pySlice t s e)
  have hsl : pySlice t s e = (t.take e.toNat).drop s.toNat := by
    unfold pySlice pyIdx
    rw [if_neg (not_lt.mpr (le_trans hs hse)), if_neg (not_lt.mpr hs)]
    have h1 : min e.toNat t.length = e.toNat := by omega
    have h2 : min s.toNat t.length = s.toNat := by omega
    rw [h1, h2]
  have hlenq : ((pySlice t s e).length : Int) = e - s := pySlice_length_eq t s e hs hse hel
  refine ⟨s.toNat + a', min (s.toNat + b') e.toNat, ?_, ?_⟩
  · rw [heq, hsl, List.take_drop, List.take_take, List.drop_drop]
  · intro i h1 h2 h3
    have hjlen : i - s.toNat < (pySlice t s e).length := by omega
    have hjlen' : i - s.toNat < ((t.take e.toNat).drop s.toNat).length := by
      rw [← hsl]
      exact hjlen
    have hit : i < t.length := by omega
    have hgd : (pySlice t s e).getD (i - s.toNat) ' ' = t.getD i ' ' := by
      rw [hsl]
      rw [List.getD_eq_getElem _ _ hjlen', List.getD_eq_getElem _ _ hit]
      have hidx : s.toNat + (i - s.toNat) = i := by omega
      simp only [List.getElem_drop, List.getElem_take]
      congr 1
    obtain ⟨ha, hb⟩ := hpos (i - s.toNat) hjlen (by rw [hgd]; exact h3)
    constructor
    · omega
    · omega

theorem cov_of_slice_mem (t : Str) (s e : Int) (hs : 0 ≤ s) (hse : s ≤ e)
    (hel : e ≤ (t.length : Int)) (chunks : List Str)
    (hmem : stripPy (pySlice t s e) ∈ chunks) :
    ∀ i : Nat, s ≤ (i : Int) → (i : Int) < e →
      isSpacePy (t.getD i ' ') = false → covered chunks t i := by
  obtain ⟨a, b, heq, hpos⟩ := strip_slice_cov t s e hs hse hel
  intro i h1 h2 h3
  obtain ⟨ha, hb⟩ := hpos i h1 h2 h3
  exact ⟨_, hmem, a, b, heq, ha, hb⟩

theorem slice_nonempty_of_nonws (t : Str) (s e : Int) (hs : 0 ≤ s) (hse : s ≤ e)
    (hel : e ≤ (t.length : Int)) (i : Nat) (h1 : s ≤ (i : Int)) (h2 : (i : Int) < e)
    (h3 : isSpacePy (t.getD i ' ') = false) :
    stripPy (pySlice t s e) ≠ [] := by
  obtain ⟨a, b, heq, hpos⟩ := strip_slice_cov t s e hs hse hel
  obtain ⟨ha, hb⟩ := hpos i h1 h2 h3
  intro hnil
  rw [hnil] at heq
  have hl := congrArg List.length heq
  simp only [List.length_nil, List.length_drop, List.length_take] at hl
  omega

theorem chunkStep_snd_ext1 (text : Str) (cs ov start : Int) (chunks : List Str) :
    ∃ ext, (chunkStep text cs ov start chunks).2.1 =
      (if (stripPy (pySlice text start (chunkEnd text cs start))).isEmpty
       then chunks
       else chunks ++ [stripPy (pySlice text start (chunkEnd text cs start))]) ++ ext := by
  rw [chunkStep_snd]
  dsimp only
  set ch1 := (if (stripPy (pySlice text start (chunkEnd text cs start))).isEmpty
      then chunks
      else chunks ++ [stripPy (pySlice text start (chunkEnd text cs start))]) with hch1
  split
  · split
    · exact ⟨[], (List.append_nil ch1).symm⟩
    · exact ⟨[stripPy (pySlice text (chunkNext text cs ov start) (text.length : Int))], rfl⟩
  · exact ⟨[], (List.append_nil ch1).symm⟩

theorem chunkStep_snd_ext (text : Str) (cs ov start : Int) (chunks : List Str) :
    ∃ ext, (chunkStep text cs ov start chunks).2.1 = chunks ++ ext := by
  obtain ⟨ext1, h1⟩ := chunkStep_snd_ext1 text cs ov start chunks
  rw [h1]
  split
  · exact ⟨ext1, rfl⟩
  · exact ⟨[stripPy (pySlice text start (chunkEnd text cs start))] ++ ext1,
      List.append_assoc _ _ _⟩

theorem chunkLoop_ext (text : Str) (cs ov : Int) :
    ∀ (fuel : Nat) (start : Int) (chunks : List Str),
      ∃ ext, chunkLoop text cs ov fuel start chunks = chunks ++ ext := by
  intro fuel
  induction fuel with
  | zero =>
    intro start chunks
    exact ⟨[], (List.append_nil chunks).symm⟩
  | succ n ih =>
    intro start chunks
    unfold chunkLoop
    dsimp only
    split
    · obtain ⟨ext1, h1⟩ := chunkStep_snd_ext text cs ov start chunks
      split
      · exact ⟨ext1, h1⟩
      · obtain ⟨ext2, h2⟩ :=
          ih (chunkStep text cs ov start chunks).1 (chunkStep text cs ov start chunks).2.1
        exact ⟨ext1 ++ ext2, by rw [h2, h1, List.append_assoc]⟩
    · exact ⟨[], (List.append_nil chunks).symm⟩

theorem chunkEnd_cases (t : Str) (start : Int) (h0 : 0 ≤ start)
    (hsl : start < (t.length : Int)) :
    chunkEnd t 600 start = (t.length : Int) ∨
    (start + 552 ≤ chunkEnd t 600 start ∧ chunkEnd t 600 start ≤ start + 600 ∧
      chunkEnd t 600 start < (t.length : Int)) := by
  unfold chunkEnd
  dsimp only
  by_cases hc : min (start + 600) (t.length : Int) < (t.length : Int)
  · rw [if_pos hc]
    right
    have hmin : min (start + 600) (t.length : Int) = start + 600 := by omega
    rw [hmin] at hc ⊢
    unfold snapEnd
    dsimp only
    have hss : max start (start + 600 - 50) = start + 550 := by omega
    rw [hss]
    split
    · rename_i m hm
      have hmem := List.mem_of_getLast?_eq_some hm
      have hb := matchEnds_bounds _ _ m hmem
      have hseg : ((pySlice t (start + 550) (start + 600)).length : Int) = 50 := by
        rw [pySlice_length_eq t _ _ (by omega) (by omega) (by omega)]
        omega
      have hm50 : m ≤ (pySlice t (start + 550) (start + 600)).length := by
        have := hb.2
        omega
      refine ⟨by omega, by omega, by omega⟩
    · exact ⟨by omega, by omega, hc⟩
  · rw [if_neg hc]
    left
    omega

theorem chunkLoop_cov (t : Str) (hlen : 600 < (t.length : Int)) :
    ∀ (fuel : Nat) (start : Int) (chunks : List Str),
      0 ≤ start →
      (∀ j : Nat, (j : Int) < start → j < t.length →
        isSpacePy (t.getD j ' ') = false → covered chunks t j) →
      ((t.length : Int) ≤ start + 452 * fuel) →
      ∀ i : Nat, i < t.length → isSpacePy (t.getD i ' ') = false →
        covered (chunkLoop t 600 100 fuel start chunks) t i := by
  intro fuel
  induction fuel with
  | zero =>
    intro start chunks h0 hcov hbound i hi hnws
    exact hcov i (by omega) hi hnws
  | succ n ih =>
    intro start chunks h0 hcov hbound i hi hnws
    unfold chunkLoop
    dsimp only
    split
    case isFalse hsl =>
      exact hcov i (by omega) hi hnws
    case isTrue hsl =>
    have hE := chunkEnd_bounds t 600 start (by norm_num) h0 hsl
    have h300 : Int.fdiv 600 2 = 300 := by decide
    set ch1 := (if (stripPy (pySlice t start (chunkEnd t 600 start))).isEmpty
        then chunks
        else chunks ++ [stripPy (pySlice t start (chunkEnd t 600 start))]) with hch1
    have hch1ext : ∃ ext, ch1 = chunks ++ ext := by
      rw [hch1]
      split
      · exact ⟨[], (List.append_nil chunks).symm⟩
      · exact ⟨[stripPy (pySlice t start (chunkEnd t 600 start))], rfl⟩
    have hcov_ch1_lo : ∀ j : Nat, (j : Int) < start → j < t.length →
        isSpacePy (t.getD j ' ') = false → covered ch1 t j := by
      intro j hj1 hj2 hj3
      obtain ⟨ext, hext⟩ := hch1ext
      rw [hext]
      exact covered_append _ _ _ _ (hcov j hj1 hj2 hj3)
    have hcov_ch1_mid : ∀ j : Nat, start ≤ (j : Int) → (j : Int) < chunkEnd t 600 start →
        isSpacePy (t.getD j ' ') = false → covered ch1 t j := by
      intro j hj1 hj2 hj3
      have hne := slice_nonempty_of_nonws t start (chunkEnd t 600 start) h0 hE.1 hE.2.2
        j hj1 hj2 hj3
      rw [hch1, if_neg (by simpa [List.isEmpty_iff] using hne)]
      exact cov_of_slice_mem t start (chunkEnd t 600 start) h0 hE.1 hE.2.2 _
        (List.mem_append_right _ (List.mem_singleton.mpr rfl)) j hj1 hj2 hj3
    have hstep_snd : (chunkStep t 600 100 start chunks).2.1 =
        (if (t.length : Int) - chunkNext t 600 100 start < Int.fdiv 600 2 then
          (if (stripPy (pySlice t (chunkNext t 600 100 start) (t.length : Int))).isEmpty ||
              ch1.contains (stripPy (pySlice t (chunkNext t 600 100 start) (t.length : Int)))
           then ch1
           else ch1 ++ [stripPy (pySlice t (chunkNext t 600 100 start) (t.length : Int))])
         else ch1) := by
      rw [chunkStep_snd]
    rcases chunkEnd_cases t start h0 hsl with hcase | hcase
    · have hcovAll : ∀ j : Nat, j < t.length → isSpacePy (t.getD j ' ') = false →
          covered ch1 t j := by
        intro j hj hjw
        by_cases hjs : (j : Int) < start
        · exact hcov_ch1_lo j hjs hj hjw
        · exact hcov_ch1_mid j (by omega) (by omega) hjw
      obtain ⟨ext1, hext1⟩ := chunkStep_snd_ext1 t 600 100 start chunks
      rw [← hch1] at hext1
      split
      · rw [hext1]
        exact covered_append _ _ _ _ (hcovAll i hi hnws)
      · obtain ⟨ext2, hext2⟩ := chunkLoop_ext t 600 100 n
          (chunkStep t 600 100 start chunks).1 (chunkStep t 600 100 start chunks).2.1
        rw [hext2, hext1, List.append_assoc]
        exact covered_append _ _ _ _ (hcovAll i hi hnws)
    · have hns : chunkNext t 600 100 start = chunkEnd t 600 start - 100 := by
        unfold chunkNext
        rw [if_neg (by omega)]
      have hnspos : 0 ≤ chunkNext t 600 100 start := by omega
      have hcov_ch1 : ∀ j : Nat, (j : Int) < chunkNext t 600 100 start → j < t.length →
          isSpacePy (t.getD j ' ') = false → covered ch1 t j := by
        intro j hj1 hj2 hj3
        by_cases hjs : (j : Int) < start
        · exact hcov_ch1_lo j hjs hj2 hj3
        · exact hcov_ch1_mid j (by omega) (by omega) hj3
      split
      case isTrue hbrk =>
        have hbrk' := (chunkStep_brk_iff t 600 100 start chunks).mp hbrk
        rw [hstep_snd, if_pos hbrk']
        by_cases hfin : (i : Int) < chunkNext t 600 100 start
        · have hcov1 := hcov_ch1 i hfin hi hnws
          split
          · exact hcov1
          · exact covered_append _ _ _ _ hcov1
        · have hns_le : chunkNext t 600 100 start ≤ (i : Int) := by omega
          have hns_lt_len : chunkNext t 600 100 start ≤ (t.length : Int) := by omega
          have hne := slice_nonempty_of_nonws t (chunkNext t 600 100 start)
            (t.length : Int) hnspos hns_lt_len (le_refl _) i hns_le (by omega) hnws
          split
          · rename_i hdup
            rcases Bool.or_eq_true_iff.mp hdup with hemp | hcont
            · exact absurd (List.isEmpty_iff.mp hemp) hne
            · have hmem : stripPy (pySlice t (chunkNext t 600 100 start)
                  (t.length : Int)) ∈ ch1 := by
                simpa using hcont
              exact cov_of_slice_mem t (chunkNext t 600 100 start) (t.length : Int)
                hnspos hns_lt_len (le_refl _) _ hmem i hns_le (by omega) hnws
          · rename_i hdup
            exact cov_of_slice_mem t (chunkNext t 600 100 start) (t.length : Int)
              hnspos hns_lt_len (le_refl _) _
              (List.mem_append_right _ (List.mem_singleton.mpr rfl)) i hns_le (by omega) hnws
      case isFalse hbrk =>
        have hbrkF : ¬ ((t.length : Int) - chunkNext t 600 100 start < Int.fdiv 600 2) := by
          intro hcontra
          exact hbrk ((chunkStep_brk_iff t 600 100 start chunks).mpr hcontra)
        have hfst : (chunkStep t 600 100 start chunks).1 = chunkNext t 600 100 start :=
          chunkStep_fst t 600 100 start chunks
        have hsnd : (chunkStep t 600 100 start chunks).2.1 = ch1 := by
          rw [hstep_snd, if_neg hbrkF]
        rw [hfst, hsnd]
        exact ih (chunkNext t 600 100 start) ch1 hnspos hcov_ch1 (by omega) i hi hnws

/- ### Claim C6 -/

/-- C6 counterexample text: 500 letters, a run of 100 spaces, one letter
(601 characters, already trimmed). -/
def c6Text : Str := List.replicate 500 'a' ++ List.replicate 100 ' ' ++ ['b']

set_option maxRecDepth 10000 in
/-- C6 is false on the code as stated: with the default chunk size 600 and
overlap 100, the interior run of 100 spaces falls at a window boundary and is
stripped from the tail of the first chunk and from the head of the following
chunks, so the space character at position 500 of the trimmed input appears
in no returned chunk at all. -/
theorem c6_counterexample :
    (stripPy c6Text).getD 500 'x' = ' ' ∧ 500 < (stripPy c6Text).length ∧
    (chunk_text c6Text 600 100).all (fun c => !(c.contains ' ')) = true := by
  refine ⟨by decide, by decide, by decide⟩

/-- C6 (amended): for the default parameters (chunk size 600, overlap 100)
and input short enough that the 1000-iteration safety cap is not reached,
every NON-WHITESPACE character of the trimmed input appears in at least one
returned chunk (each chunk being a contiguous slice of the trimmed input
containing that position); whitespace characters can be lost to stripping at
chunk boundaries. -/
theorem c6_amended (text : Str) (hlen : (stripPy text).length ≤ 452000) :
    ∀ i : Nat, i < (stripPy text).length →
      isSpacePy ((stripPy text).getD i ' ') = false →
      covered (chunk_text text 600 100) (stripPy text) i := by
  intro i hi hnws
  unfold chunk_text
  dsimp only
  have hcs : (if (600 : Int) = 0 then CHUNK_SIZE else (600 : Int)) = 600 := by norm_num
  have hov : (if (100 : Int) = 0 then CHUNK_OVERLAP else (100 : Int)) = 100 := by norm_num
  rw [hcs, hov]
  split
  · rename_i hemp
    rw [List.isEmpty_iff] at hemp
    rw [hemp] at hi
    simp at hi
  · split
    · refine ⟨stripPy text, List.mem_singleton.mpr rfl, 0, (stripPy text).length,
        ?_, by omega, hi⟩
      rw [List.take_length, List.drop_zero]
    · rename_i hemp hbig
      have hlen600 : 600 < ((stripPy text).length : Int) := by omega
      exact chunkLoop_cov (stripPy text) hlen600 1000 0 [] (le_refl 0)
        (fun j hj1 _ _ => absurd hj1 (by omega))
        (by push_cast; omega) i hi hnws

/-- C6 witness text. -/
def c6WitnessText : Str := ("temperature range ok".toList)

/-- Witness for `c6_amended` at a short concrete text. -/
theorem c6_amended_witness :
    (stripPy c6WitnessText).length ≤ 452000 ∧
    (∀ i : Nat, i < (stripPy c6WitnessText).length →
      isSpacePy ((stripPy c6WitnessText).getD i ' ') = false →
      covered (chunk_text c6WitnessText 600 100) (stripPy c6WitnessText) i) :=
  ⟨by decide, c6_amended c6WitnessText (by decide)⟩

/- ### Answer synthesis (rag.py RAGSystem._generate_answer) -/

/-- The cleaned context of `_generate_answer`: drop every line whose stripped
form starts with "[Source", then concatenate each kept line followed by one
space (the source builds the string with `clean_context += line + " "`). -/
def cleanContext (context : Str) : Str :=
  ((splitSub (['\n']) context).filter
    (fun line => !(startsWithL ("[Source".toList) (stripPy line)))).foldl
    (fun acc line => acc ++ line ++ [' ']) []

/-- The extraction of the temperature-range rule: text after the first
"Normal Operating Range:" up to the next "High Alarm Setpoint:", stripped
(`parts[1].split("High Alarm Setpoint:")[0].strip()` in the source). -/
def tempRangeExtract (s : Str) : Str :=
  stripPy ((splitSub ("High Alarm Setpoint:".toList)
    ((splitSub ("Normal Operating Range:".toList) s).getD 1 [])).getD 0 [])

/-- Rule 1 of `_generate_answer` (temperature-range questions); `none` means
the rule does not fire and control falls through. -/
def tempRangeRule (ql clean : Str) : Option Str :=
  if containsSub ("temperature".toList) ql && containsSub ("range".toList) ql then
    if containsSub ("Normal Operating Range:".toList) clean then
      if (splitSub ("Normal Operating Range:".toList) clean).length > 1 then
        some (("The normal operating temperature range is ".toList) ++
          tempRangeExtract clean ++ ['.'])
      else none
    else none
  else none

/-- The keyword list of the alarm/procedure rule. -/
def procKeywords : List Str :=
  [("1.".toList), ("2.".toList), ("3.".toList), ("check".toList),
   ("verify".toList), ("reduce".toList)]

/-- Rule 2 of `_generate_answer`: alarm/procedure questions. -/
def alarmProcRule (ql clean : Str) : Option Str :=
  if containsSub ("alarm".toList) ql || containsSub ("procedure".toList) ql then
    let sentences := splitSub (['.']) clean
    let procedures := (sentences.map stripPy).filter (fun s =>
      (procKeywords.any (fun w => containsSub w (lowerPy s))) &&
        decide (s.length > 10) && decide (s.length < 200))
    if !procedures.isEmpty then
      some ((List.intercalate (". ".toList) (procedures.take 3)) ++ ['.'])
    else none
  else none

/-- Rule 3 of `_generate_answer`: calibration questions (note the source
searches and splits the LOWERCASED clean context). -/
def calibrationRule (ql clean : Str) : Option Str :=
  if containsSub ("calibration".toList) ql || containsSub ("calibrate".toList) ql then
    if containsSub ("calibration procedure:".toList) (lowerPy clean) then
      if (splitSub ("calibration procedure:".toList) (lowerPy clean)).length > 1 then
        some (("Calibration procedure: ".toList) ++
          stripPy ((splitSub ("preventive maintenance:".toList)
            ((splitSub ("calibration procedure:".toList) (lowerPy clean)).getD 1 [])).getD 0 [])
          ++ ['.'])
      else none
    else none
  else none

/-- Python `str.endswith`. -/
def endsWithL (suffix l : Str) : Bool := startsWithL suffix.reverse l.reverse

/-- The default rule of `_generate_answer`: first two sentences longer than
20 characters, else the first 300 characters with an ellipsis. -/
def defaultRule (clean : Str) : Str :=
  let sentences := ((splitSub (['.']) clean).map stripPy).filter
    (fun s => decide (s.length > 20))
  if !sentences.isEmpty then
    let answer := List.intercalate (". ".toList) (sentences.take 2)
    if endsWithL (['.']) answer then answer else answer ++ ['.']
  else
    if clean.length > 300 then clean.take 300 ++ ("...".toList) else clean

/-- Embedding of `RAGSystem._generate_answer(query, context)`: template-based extraction,
applying the first matching rule in source order. -/
def genAnswer (query context : Str) : Str :=
  if (stripPy context).isEmpty then
    ("No relevant information found in the documents.".toList)
  else
    let clean := cleanContext context
    let ql := lowerPy query
    match tempRangeRule ql clean with
    | some ans => ans
    | none =>
      match alarmProcRule ql clean with
      | some ans => ans
      | none =>
        match calibrationRule ql clean with
        | some ans => ans
        | none => defaultRule clean

/- ### Lemmas for the temperature-range rule (claim C8) -/

theorem startsWithL_mem : ∀ (pat l : Str), startsWithL pat l = true →
    ∀ x ∈ pat, x ∈ l := by
  intro pat
  induction pat with
  | nil =>
    intro l _ x hx
    simp at hx
  | cons c p ih =>
    intro l h x hx
    match l with
    | [] => simp [startsWithL] at h
    | d :: t =>
      unfold startsWithL at h
      rw [Bool.and_eq_true] at h
      have hcd : c = d := by
        have := h.1
        simpa using this
      rcases List.mem_cons.mp hx with hxc | hxp
      · subst hxc
        rw [hcd]
        exact List.mem_cons_self _ _
      · exact List.mem_cons_of_mem _ (ih t h.2 x hxp)

theorem findSub_starts : ∀ (l : Str) (pat : Str) (i : Nat),
    findSub pat l = some i → startsWithL pat (l.drop i) = true := by
  intro l
  induction l with
  | nil =>
    intro pat i h
    unfold findSub at h
    split at h
    · rename_i hs
      have : i = 0 := by
        injection h with h'
        omega
      subst this
      exact hs
    · exact absurd h (by simp)
  | cons c t ih =>
    intro pat i h
    unfold findSub at h
    split at h
    · rename_i hs
      have : i = 0 := by
        injection h with h'
        omega
      subst this
      exact hs
    · rw [Option.map_eq_some'] at h
      obtain ⟨j, hj, hji⟩ := h
      subst hji
      simpa using ih pat j hj

theorem containsSub_mem (pat l : Str) (h : containsSub pat l = true) :
    ∀ x ∈ pat, x ∈ l := by
  unfold containsSub at h
  rw [Option.isSome_iff_exists] at h
  obtain ⟨i, hi⟩ := h
  intro x hx
  have hs := findSub_starts l pat i hi
  have := startsWithL_mem pat (l.drop i) hs x hx
  exact List.mem_of_mem_drop this

theorem splitSubF_chars : ∀ (fuel : Nat) (sep l : Str),
    ∀ part ∈ splitSubF sep fuel l, ∀ x ∈ part, x ∈ l := by
  intro fuel
  induction fuel with
  | zero =>
    intro sep l part hpart x hx
    unfold splitSubF at hpart
    have : part = l := List.mem_singleton.mp hpart
    subst this
    exact hx
  | succ n ih =>
    intro sep l part hpart x hx
    unfold splitSubF at hpart
    split at hpart
    · have : part = l := List.mem_singleton.mp hpart
      subst this
      exact hx
    · rename_i i hfind
      rcases List.mem_cons.mp hpart with hpl | hrest
      · subst hpl
        exact List.mem_of_mem_take hx
      · have := ih sep (l.drop (i + sep.length)) part hrest x hx
        exact List.mem_of_mem_drop this

theorem splitSub_chars (sep l : Str) :
    ∀ part ∈ splitSub sep l, ∀ x ∈ part, x ∈ l :=
  splitSubF_chars _ sep l

theorem splitSubF_length_pos (sep : Str) : ∀ (fuel : Nat) (l : Str),
    0 < (splitSubF sep fuel l).length := by
  intro fuel l
  match fuel with
  | 0 => simp [splitSubF]
  | n + 1 =>
    unfold splitSubF
    split
    · simp
    · simp

theorem foldl_append_space (ls : List Str) (acc : Str) :
    ls.foldl (fun acc line => acc ++ line ++ [' ']) acc =
      acc ++ (ls.map (fun line => line ++ [' '])).flatten := by
  induction ls generalizing acc with
  | nil => simp
  | cons hd tl ih =>
    simp only [List.foldl_cons, List.map_cons, List.flatten_cons]
    rw [ih]
    simp [List.append_assoc]

theorem mem_cleanContext (context : Str) (x : Char)
    (hx : x ∈ cleanContext context) : x = ' ' ∨ x ∈ context := by
  unfold cleanContext at hx
  rw [foldl_append_space] at hx
  rw [List.nil_append] at hx
  rw [List.mem_flatten] at hx
  obtain ⟨piece, hpiece, hxp⟩ := hx
  rw [List.mem_map] at hpiece
  obtain ⟨line, hline, hlp⟩ := hpiece
  subst hlp
  rcases List.mem_append.mp hxp with hxl | hxsp
  · right
    have hline' := List.mem_of_mem_filter hline
    exact splitSub_chars _ context line hline' x hxl
  · left
    exact List.mem_singleton.mp hxsp

theorem stripPy_all_ws (l : Str) (h : stripPy l = []) :
    ∀ x ∈ l, isSpacePy x = true := by
  unfold stripPy at h
  rw [List.rdropWhile_eq_nil_iff] at h
  intro x hx
  conv at hx => rw [← List.takeWhile_append_dropWhile (p := isSpacePy) (l := l)]
  rcases List.mem_append.mp hx with h1 | h2
  · exact List.mem_takeWhile_imp h1
  · exact h x h2

theorem splitSub_length_gt (sep l : Str) (h : containsSub sep l = true) :
    1 < (splitSub sep l).length := by
  unfold containsSub at h
  rw [Option.isSome_iff_exists] at h
  obtain ⟨i, hi⟩ := h
  unfold splitSub splitSubF
  rw [hi]
  simp only [List.length_cons]
  have := splitSubF_length_pos sep l.length (l.drop (i + sep.length))
  omega

/- ### Claim C8 -/

/-- C8 (amended): when the lowercased query contains "temperature" and
"range" and the CLEANED context (lines starting with "[Source" dropped, each
remaining line suffixed by one space) contains "Normal Operating Range:",
`_generate_answer` returns the trimmed text of the cleaned context between
that marker and the next "High Alarm Setpoint:", wrapped as
"The normal operating temperature range is {X}." — and this rule wins over
the alarm/procedure and calibration rules regardless of the rest of the
query. -/
theorem c8_temp_range_rule (query context : Str)
    (hq1 : containsSub ("temperature".toList) (lowerPy query) = true)
    (hq2 : containsSub ("range".toList) (lowerPy query) = true)
    (hm : containsSub ("Normal Operating Range:".toList) (cleanContext context) = true) :
    genAnswer query context =
      ("The normal operating temperature range is ".toList) ++
        tempRangeExtract (cleanContext context) ++ ['.'] := by
  have hN : 'N' ∈ cleanContext context :=
    containsSub_mem _ _ hm 'N' (by decide)
  have hNctx : 'N' ∈ context := by
    rcases mem_cleanContext context 'N' hN with h | h
    · exact absurd h (by decide)
    · exact h
  have hstrip : ¬ (stripPy context).isEmpty := by
    rw [List.isEmpty_iff]
    intro hnil
    have := stripPy_all_ws context hnil 'N' hNctx
    simp [isSpacePy] at this
  have hrule : tempRangeRule (lowerPy query) (cleanContext context) =
      some (("The normal operating temperature range is ".toList) ++
        tempRangeExtract (cleanContext context) ++ ['.']) := by
    unfold tempRangeRule
    rw [hq1, hq2]
    rw [if_pos (by simp)]
    rw [if_pos hm]
    rw [if_pos (splitSub_length_gt _ _ hm)]
  unfold genAnswer
  rw [if_neg hstrip]
  dsimp only
  rw [hrule]

/-- C8 counterexample query. -/
def c8Query : Str := ("temperature range".toList)

/-- C8 counterexample context: the text between the markers spans a newline. -/
def c8Context : Str :=
  ("Normal Operating Range: 10\n20 High Alarm Setpoint: 5".toList)

/-- C8 is false on the code as stated: line joining replaces the newline of
the raw context with a space, so the answer wraps "10 20" while the trimmed
text between the two markers of the raw context is "10\n20". -/
theorem c8_counterexample :
    genAnswer c8Query c8Context =
      ("The normal operating temperature range is 10 20.".toList) ∧
    tempRangeExtract c8Context = ("10\n20".toList) ∧
    genAnswer c8Query c8Context ≠
      ("The normal operating temperature range is ".toList) ++
        tempRangeExtract c8Context ++ ['.'] := by
  refine ⟨by decide, by decide, by decide⟩

/-- Witness for `c8_temp_range_rule` at the concrete counterexample input. -/
theorem c8_temp_range_rule_witness :
    containsSub ("temperature".toList) (lowerPy c8Query) = true ∧
    containsSub ("range".toList) (lowerPy c8Query) = true ∧
    containsSub ("Normal Operating Range:".toList) (cleanContext c8Context) = true ∧
    genAnswer c8Query c8Context =
      ("The normal operating temperature range is ".toList) ++
        tempRangeExtract (cleanContext c8Context) ++ ['.'] :=
  ⟨by decide, by decide, by decide,
    c8_temp_range_rule c8Query c8Context (by decide) (by decide) (by decide)⟩

/- ### Alarm analysis (alarms.py AlarmAnalyzer) -/

/-- A row of the alarm CSV (`timestamp, tag, value, alarm_state`); the code
only compares, orders and subtracts timestamps, so they are modelled as
integers. -/
structure AlarmRow where
  timestamp : Int
  tag : Str
  value : ℚ
  alarm_state : Str
deriving DecidableEq

/-- An alarm-state transition record of `_find_alarm_transitions`. -/
structure Transition where
  timestamp : Int
  from_state : Str
  to_state : Str
  value : ℚ
deriving DecidableEq

/-- Lexicographic Boolean order on strings (for the (timestamp, tag) sort). -/
def strLe : Str → Str → Bool
  | [], _ => true
  | _ :: _, [] => false
  | c :: cs, d :: ds => if c < d then true else if d < c then false else strLe cs ds

/-- Row order of `df.sort_values(['timestamp', 'tag'])`. -/
def rowLe (a b : AlarmRow) : Bool :=
  if a.timestamp < b.timestamp then true
  else if b.timestamp < a.timestamp then false
  else strLe a.tag b.tag

/-- Insertion step of the sort. -/
def insertSorted (r : AlarmRow) : List AlarmRow → List AlarmRow
  | [] => [r]
  | x :: xs => if rowLe r x then r :: x :: xs else x :: insertSorted r xs

/-- Sort rows by (timestamp, tag); pandas does not guarantee a stable order
on ties, so any comparison sort is a faithful model. -/
def sortRows : List AlarmRow → List AlarmRow
  | [] => []
  | x :: xs => insertSorted x (sortRows xs)

/-- Embedding of `AlarmAnalyzer.load_alarm_data`: a missing or unreadable file yields the
empty table (`pd.DataFrame()`); otherwise rows are sorted by
(timestamp, tag). -/
def loadAlarmData (fileData : Option (List AlarmRow)) : List AlarmRow :=
  match fileData with
  | none => []
  | some rows => sortRows rows

/-- Embedding of `AlarmAnalyzer.slice_by_time`: filter by tag and inclusive time window
(the time strings arrive here already parsed; unparsable ones raise inside
the source's try and also yield the empty table). -/
def sliceByTime (df : List AlarmRow) (tag : Str) (startT endT : Int) : List AlarmRow :=
  df.filter (fun r =>
    r.tag == tag && decide (startT ≤ r.timestamp) && decide (r.timestamp ≤ endT))

/-- Least-squares slope of `values` over the sample index 0,1,2,…: the
degree-1 coefficient computed by `np.polyfit(x, values, 1)`, in exact
rational arithmetic. -/
def polyfitSlope (values : List ℚ) : ℚ :=
  let n : ℚ := values.length
  let sx : ℚ := ∑ i in Finset.range values.length, (i : ℚ)
  let sy : ℚ := values.sum
  let sxy : ℚ := ∑ i in Finset.range values.length, (i : ℚ) * values.getD i 0
  let sxx : ℚ := ∑ i in Finset.range values.length, ((i : ℚ)) ^ 2
  (n * sxy - sx * sy) / (n * sxx - sx ^ 2)

/-- The histogram `df['alarm_state'].value_counts().to_dict()`; the order of
entries is irrelevant to every consumer (only membership is queried). -/
def valueCounts (states : List Str) : List (Str × Nat) :=
  states.dedup.map (fun s => (s, (states.filter (fun x => x == s)).length))

/-- Embedding of `AlarmAnalyzer._find_alarm_transitions`: strict state-change scan over
consecutive rows. -/
def findAlarmTransitions (df : List AlarmRow) : List Transition :=
  if df.length < 2 then []
  else (df.zip df.tail).filterMap (fun p =>
    if p.1.alarm_state ≠ p.2.alarm_state then
      some { timestamp := p.2.timestamp, from_state := p.1.alarm_state,
             to_state := p.2.alarm_state, value := p.2.value }
    else none)

/-- The summary-statistics record of `compute_summary_stats`.  `var_value`
is the square of the source's `std_value` (`np.std` itself is an irrational
square root; no claim touches it). -/
structure SummaryStats where
  count : Nat
  min_value : ℚ
  max_value : ℚ
  mean_value : ℚ
  var_value : ℚ
  time_span : Int
  trend_slope : ℚ
  trend_direction : Str
  alarm_states : List (Str × Nat)
  alarm_transitions : List Transition

/-- Embedding of `AlarmAnalyzer.compute_summary_stats`: `none` models the `{}` returned
for an empty frame. -/
def computeSummaryStats (df : List AlarmRow) : Option SummaryStats :=
  if df.isEmpty then none
  else
    let values := df.map (fun r => r.value)
    let n := values.length
    some {
      count := n,
      min_value := values.foldl min (values.headD 0),
      max_value := values.foldl max (values.headD 0),
      mean_value := values.sum / (n : ℚ),
      var_value := (values.map (fun v => (v - values.sum / (n : ℚ)) ^ 2)).sum / (n : ℚ),
      time_span := ((df.getLast?.map (fun r => r.timestamp)).getD 0) -
        ((df.head?.map (fun r => r.timestamp)).getD 0),
      trend_slope := if n > 1 then polyfitSlope values else 0,
      trend_direction :=
        if n > 1 then
          (if polyfitSlope values > 1 / 10 then ("increasing".toList)
           else if polyfitSlope values < -(1 / 10) then ("decreasing".toList)
           else ("stable".toList))
        else ("stable".toList),
      alarm_states := valueCounts (df.map (fun r => r.alarm_state)),
      alarm_transitions := findAlarmTransitions df }

/- ### Claim C7 -/

theorem polyfitSlope_short (values : List ℚ) (h : values.length ≤ 1) :
    polyfitSlope values = 0 := by
  match values with
  | [] =>
    unfold polyfitSlope
    simp
  | [v] =>
    unfold polyfitSlope
    simp [Finset.sum_range_succ]
  | a :: b :: t =>
    exfalso
    simp at h

theorem polyfitSlope_const (values : List ℚ) (c : ℚ) (h : ∀ v ∈ values, v = c) :
    polyfitSlope values = 0 := by
  unfold polyfitSlope
  dsimp only
  have hsy : values.sum = (values.length : ℚ) * c := by
    rw [List.sum_eq_card_nsmul values c h]
    simp [nsmul_eq_mul]
  have hsxy : (∑ i in Finset.range values.length, (i : ℚ) * values.getD i 0) =
      (∑ i in Finset.range values.length, (i : ℚ)) * c := by
    rw [Finset.sum_mul]
    apply Finset.sum_congr rfl
    intro i hi
    rw [Finset.mem_range] at hi
    rw [List.getD_eq_getElem _ _ hi]
    rw [h _ (List.getElem_mem _)]
  rw [hsy, hsxy]
  have hnum : (values.length : ℚ) * ((∑ i in Finset.range values.length, (i : ℚ)) * c) -
      (∑ i in Finset.range values.length, (i : ℚ)) * ((values.length : ℚ) * c) = 0 := by
    ring
  rw [hnum, zero_div]

/- ### Positivity of the fitted slope for strictly increasing data -/

theorem list_sum_getD (l : List ℚ) :
    l.sum = ∑ i in Finset.range l.length, l.getD i 0 := by
  induction l with
  | nil => simp
  | cons a t ih =>
    rw [List.sum_cons, List.length_cons, Finset.sum_range_succ', ih]
    simp only [List.getD_cons_succ, List.getD_cons_zero]
    ring

theorem pairwise_getD_lt (l : List ℚ) (h : List.Pairwise (· < ·) l)
    (i j : Nat) (hij : i < j) (hj : j < l.length) :
    l.getD i 0 < l.getD j 0 := by
  rw [List.getD_eq_getElem _ _ (lt_trans hij hj), List.getD_eq_getElem _ _ hj]
  exact List.pairwise_iff_getElem.mp h i j (lt_trans hij hj) hj hij

theorem sum_mul_sub_pos (n : Nat) (hn : 2 ≤ n) (f g : Nat → ℚ)
    (hf : ∀ i j : Nat, i < j → j < n → f i < f j)
    (hg : ∀ i j : Nat, i < j → j < n → g i < g j) :
    0 < (n : ℚ) * (∑ i in Finset.range n, f i * g i) -
        (∑ i in Finset.range n, f i) * (∑ i in Finset.range n, g i) := by
  have key : ∑ i in Finset.range n, ∑ j in Finset.range n, (f i - f j) * (g i - g j) =
      2 * ((n : ℚ) * (∑ i in Finset.range n, f i * g i) -
        (∑ i in Finset.range n, f i) * (∑ i in Finset.range n, g i)) := by
    have inner : ∀ i : Nat, ∑ j in Finset.range n, (f i - f j) * (g i - g j) =
        (n : ℚ) * (f i * g i) - f i * (∑ j in Finset.range n, g j) -
          (∑ j in Finset.range n, f j) * g i + (∑ j in Finset.range n, f j * g j) := by
      intro i
      have hterm : ∀ j : Nat, (f i - f j) * (g i - g j) =
          f i * g i - f i * g j - f j * g i + f j * g j := by
        intro j
        ring
      rw [Finset.sum_congr rfl (fun j _ => hterm j)]
      rw [Finset.sum_add_distrib, Finset.sum_sub_distrib, Finset.sum_sub_distrib]
      rw [Finset.sum_const, Finset.card_range, ← Finset.mul_sum, ← Finset.sum_mul]
      simp only [nsmul_eq_mul]
    rw [Finset.sum_congr rfl (fun i _ => inner i)]
    rw [Finset.sum_add_distrib, Finset.sum_sub_distrib, Finset.sum_sub_distrib]
    rw [Finset.sum_const, Finset.card_range, ← Finset.mul_sum, ← Finset.sum_mul,
      ← Finset.mul_sum]
    simp only [nsmul_eq_mul]
    ring
  have hterm_nonneg : ∀ i ∈ Finset.range n, ∀ j ∈ Finset.range n,
      0 ≤ (f i - f j) * (g i - g j) := by
    intro i hi j hj
    rw [Finset.mem_range] at hi hj
    rcases lt_trichotomy i j with h | h | h
    · have h1 : f i - f j < 0 := sub_neg.mpr (hf i j h hj)
      have h2 : g i - g j < 0 := sub_neg.mpr (hg i j h hj)
      exact le_of_lt (mul_pos_of_neg_of_neg h1 h2)
    · subst h
      simp
    · have h1 : 0 < f i - f j := sub_pos.mpr (hf j i h hi)
      have h2 : 0 < g i - g j := sub_pos.mpr (hg j i h hi)
      exact le_of_lt (mul_pos h1 h2)
  have h0mem : 0 ∈ Finset.range n := Finset.mem_range.mpr (by omega)
  have h1mem : 1 ∈ Finset.range n := Finset.mem_range.mpr (by omega)
  have hinner0 : 0 < ∑ j in Finset.range n, (f 0 - f j) * (g 0 - g j) := by
    apply Finset.sum_pos' (fun j hj => hterm_nonneg 0 h0mem j hj)
    refine ⟨1, h1mem, ?_⟩
    have h1 : f 0 - f 1 < 0 := sub_neg.mpr (hf 0 1 (by omega) (by omega))
    have h2 : g 0 - g 1 < 0 := sub_neg.mpr (hg 0 1 (by omega) (by omega))
    exact mul_pos_of_neg_of_neg h1 h2
  have hsum_pos : 0 < ∑ i in Finset.range n, ∑ j in Finset.range n,
      (f i - f j) * (g i - g j) := by
    apply Finset.sum_pos'
    · intro i hi
      exact Finset.sum_nonneg (fun j hj => hterm_nonneg i hi j hj)
    · exact ⟨0, h0mem, hinner0⟩
  rw [key] at hsum_pos
  linarith

theorem polyfitSlope_pos_of_strictMono (values : List ℚ)
    (h2 : 2 ≤ values.length) (hmono : List.Pairwise (· < ·) values) :
    0 < polyfitSlope values := by
  unfold polyfitSlope
  dsimp only
  have hf : ∀ i j : Nat, i < j → j < values.length → ((i : ℚ)) < ((j : ℚ)) := by
    intro i j hij _
    exact_mod_cast hij
  have hg : ∀ i j : Nat, i < j → j < values.length →
      values.getD i 0 < values.getD j 0 :=
    fun i j hij hj => pairwise_getD_lt values hmono i j hij hj
  have hN := sum_mul_sub_pos values.length h2 (fun i => (i : ℚ))
    (fun i => values.getD i 0) hf hg
  have hD := sum_mul_sub_pos values.length h2 (fun i => (i : ℚ))
    (fun i => (i : ℚ)) hf hf
  rw [list_sum_getD values]
  have hsq : (∑ i in Finset.range values.length, ((i : ℚ)) ^ 2) =
      ∑ i in Finset.range values.length, ((i : ℚ)) * ((i : ℚ)) := by
    apply Finset.sum_congr rfl
    intro i _
    ring
  have hsx2 : (∑ i in Finset.range values.length, ((i : ℚ))) ^ 2 =
      (∑ i in Finset.range values.length, ((i : ℚ))) *
        (∑ i in Finset.range values.length, ((i : ℚ))) := by
    ring
  rw [hsq, hsx2]
  exact div_pos hN hD

/-- C7 (amended): a strictly increasing value sequence of length at least 2
always yields a positive trend_slope, but trend_direction is "increasing" if
and only if the fitted slope exceeds 0.1 (a strictly increasing sequence
with a smaller slope is labelled "stable"); a constant sequence always
yields "stable". -/
theorem c7_trend (rows : List AlarmRow) :
    (List.Pairwise (· < ·) (rows.map (fun r => r.value)) → 2 ≤ rows.length →
      ∃ st, computeSummaryStats rows = some st ∧ 0 < st.trend_slope ∧
        (st.trend_direction = ("increasing".toList) ↔
          1 / 10 < polyfitSlope (rows.map (fun r => r.value)))) ∧
    (∀ c : ℚ, rows ≠ [] → (∀ r ∈ rows, r.value = c) →
      ∃ st, computeSummaryStats rows = some st ∧
        st.trend_direction = ("stable".toList)) := by
  constructor
  · intro hmono h2
    have hlen : 1 < (rows.map (fun r => r.value)).length := by
      rw [List.length_map]
      omega
    have hpos := polyfitSlope_pos_of_strictMono (rows.map (fun r => r.value))
      (by rw [List.length_map]; omega) hmono
    have hne : rows.isEmpty = false := by
      cases rows
      · simp at h2
      · rfl
    unfold computeSummaryStats
    rw [hne]
    simp only [Bool.false_eq_true, if_false]
    refine ⟨_, rfl, ?_, ?_⟩
    · dsimp only
      rw [if_pos hlen]
      exact hpos
    · dsimp only
      rw [if_pos hlen]
      constructor
      · intro hdir
        by_contra hsl
        rw [if_neg hsl] at hdir
        split at hdir
        · exact absurd hdir (by decide)
        · exact absurd hdir (by decide)
      · intro hsl
        rw [if_pos hsl]
  · intro c hne hconst
    have hne' : rows.isEmpty = false := by
      cases rows
      · exact absurd rfl hne
      · rfl
    have hval : ∀ v ∈ rows.map (fun r => r.value), v = c := by
      intro v hv
      rw [List.mem_map] at hv
      obtain ⟨r, hr, hrv⟩ := hv
      rw [← hrv]
      exact hconst r hr
    have hsl := polyfitSlope_const _ c hval
    unfold computeSummaryStats
    rw [hne']
    simp only [Bool.false_eq_true, if_false]
    refine ⟨_, rfl, ?_⟩
    dsimp only
    split
    · rw [hsl]
      rw [if_neg (by norm_num), if_neg (by norm_num)]
    · rfl

/-- A bare counterexample row (only the value matters). -/
def c7Row (v : ℚ) : AlarmRow :=
  { timestamp := 0, tag := [], value := v, alarm_state := [] }

/-- C7 counterexample rows: strictly increasing values 0 and 0.01. -/
def c7Rows : List AlarmRow := [c7Row 0, c7Row (1 / 100)]

theorem c7Rows_slope : polyfitSlope (c7Rows.map (fun r => r.value)) = 1 / 100 := by
  unfold c7Rows c7Row polyfitSlope
  simp [Finset.sum_range_succ]
  norm_num

/-- C7 is false on the code as stated: the strictly increasing length-2
sequence 0, 0.01 has fitted slope 0.01 ≤ 0.1, so the trend label is
"stable", not "increasing". -/
theorem c7_counterexample :
    List.Pairwise (· < ·) (c7Rows.map (fun r => r.value)) ∧
    2 ≤ c7Rows.length ∧
    (computeSummaryStats c7Rows).map (fun st => st.trend_direction) =
      some ("stable".toList) ∧
    ("stable".toList) ≠ ("increasing".toList) := by
  refine ⟨?_, by decide, ?_, by decide⟩
  · unfold c7Rows c7Row
    simp
  · unfold computeSummaryStats
    rw [show c7Rows.isEmpty = false from rfl]
    simp only [Bool.false_eq_true, if_false, Option.map_some']
    rw [if_pos (by decide), c7Rows_slope]
    rw [if_neg (by norm_num), if_neg (by norm_num)]

/-- C7 witness rows for the increasing branch: values 0 and 1. -/
def c7WitRows : List AlarmRow := [c7Row 0, c7Row 1]

/-- C7 witness rows for the constant branch: value 5 twice. -/
def c7ConstRows : List AlarmRow := [c7Row 5, c7Row 5]

theorem c7WitRows_slope : polyfitSlope (c7WitRows.map (fun r => r.value)) = 1 := by
  unfold c7WitRows c7Row polyfitSlope
  simp [Finset.sum_range_succ]
  norm_num

/-- Witness for `c7_trend` at concrete increasing and constant sequences. -/
theorem c7_trend_witness :
    (∃ st, computeSummaryStats c7WitRows = some st ∧ 0 < st.trend_slope ∧
      (st.trend_direction = ("increasing".toList) ↔
        1 / 10 < polyfitSlope (c7WitRows.map (fun r => r.value)))) ∧
    (∃ st, computeSummaryStats c7ConstRows = some st ∧
      st.trend_direction = ("stable".toList)) :=
  ⟨(c7_trend c7WitRows).1
      (by unfold c7WitRows c7Row; simp)
      (by decide),
    (c7_trend c7ConstRows).2 5 (by simp [c7ConstRows])
      (by intro r hr
          rcases List.mem_cons.mp hr with h | h
          · rw [h]
            rfl
          · rw [List.mem_singleton.mp h]
            rfl)⟩

/- ### The ask / explain_alarm pipeline (claim C9) -/

/-- rag.py `RAGSystem._format_context`: strip each result's text, keep the
non-empty ones, join with a blank line. -/
def formatContext (results : List SearchResult) : Str :=
  List.intercalate ("\n\n".toList)
    ((results.map (fun r => stripPy r.text)).filter (fun t => !t.isEmpty))

/-- The "I don't know" answer of `ask`. -/
def dontKnowAnswer : Str :=
  ("I don't know the answer to that question based on the available documents. Please try rephrasing your question or asking about topics covered in the technical manuals.".toList)

/-- Result record of `ask` (always carries `answer` and `citations`). -/
structure AskResult where
  answer : Str
  citations : List Citation
deriving DecidableEq

/-- Embedding of `RAGSystem.retrieve`: the vector search is modelled as an abstract
outcome; any exception is caught inside `retrieve` and yields `[]`. -/
def retrieveModel (searchOutcome : Except Unit (List SearchResult)) : List SearchResult :=
  match searchOutcome with
  | Except.ok r => r
  | Except.error _ => []

/-- rag.py `RAGSystem.ask`.  Totality of this function is the embedding of
"the outer try/except never lets an exception escape". -/
def ask (searchOutcome : Except Unit (List SearchResult)) (query : Str) : AskResult :=
  let results := retrieveModel searchOutcome
  if !(checkRetrievalConfidence results query) then
    { answer := dontKnowAnswer, citations := [] }
  else
    { answer := genAnswer query (formatContext results),
      citations := format_citations results }

/-- Decimal rendering of a rational with a fixed number of fraction digits
(Python's `format(x, '.1f')` etc., modelled with exact half-even rounding). -/
def fmtFixed (digits : Nat) (q : ℚ) : Str :=
  let scaled := roundHalfEven (q * ((10 : ℚ) ^ digits))
  let sign : Str := if scaled < 0 then ['-'] else []
  let a := scaled.natAbs
  let ip := a / 10 ^ digits
  let fp := a % 10 ^ digits
  let fpStr := (Nat.repr fp).toList
  if digits = 0 then sign ++ (Nat.repr ip).toList
  else sign ++ (Nat.repr ip).toList ++ ['.'] ++
    (List.replicate (digits - fpStr.length) '0' ++ fpStr)

/-- Embedding of `AlarmAnalyzer.format_data_summary`. -/
def formatDataSummary (stats : Option SummaryStats) (tag : Str) : Str :=
  match stats with
  | none => ("No data available for ".toList) ++ tag ++ ['.']
  | some st =>
    let base : List Str := [
      ("Process tag ".toList) ++ tag ++ (" analysis:".toList),
      ("• Data points: ".toList) ++ (Nat.repr st.count).toList ++ (" over ".toList) ++
        fmtFixed 1 ((st.time_span : ℚ)) ++ (" hours".toList),
      ("• Value range: ".toList) ++ fmtFixed 2 st.min_value ++ (" to ".toList) ++
        fmtFixed 2 st.max_value ++ (" (mean: ".toList) ++ fmtFixed 2 st.mean_value ++
        (")".toList),
      ("• Trend: ".toList) ++ st.trend_direction ++ (" (slope: ".toList) ++
        fmtFixed 3 st.trend_slope ++ (")".toList)]
    let withStates :=
      if st.alarm_states.isEmpty then base
      else base ++ [("• Alarm states: ".toList) ++
        List.intercalate (", ".toList)
          (st.alarm_states.map (fun p => p.1 ++ (": ".toList) ++ (Nat.repr p.2).toList))]
    let critical := st.alarm_transitions.filter
      (fun t => containsSub ("High".toList) ( t.to_state))
    let withTrans :=
      if st.alarm_transitions.isEmpty then withStates
      else
        (withStates ++ [("• Alarm transitions: ".toList) ++
          (Nat.repr st.alarm_transitions.length).toList ++
          (" state changes detected".toList)]) ++
        (if critical.isEmpty then []
         else [("• Critical: ".toList) ++ (Nat.repr critical.length).toList ++
           (" transitions to alarm states".toList)])
    List.intercalate (['\n']) withTrans

/-- The guidance query of `AlarmAnalyzer.get_tag_guidance`. -/
def guidanceQuery (tag : Str) (stats : Option SummaryStats) : Str :=
  let hasHH := match stats with
    | some st => st.alarm_states.any (fun p => p.1 == ("HighHigh".toList))
    | none => false
  let hasH := match stats with
    | some st => st.alarm_states.any (fun p => p.1 == ("High".toList))
    | none => false
  let trend := match stats with
    | some st => st.trend_direction
    | none => ("stable".toList)
  let parts := [tag] ++
    (if hasHH then [("high high alarm response procedure".toList)]
     else if hasH then [("high alarm response procedure".toList)]
     else []) ++
    (if trend = ("increasing".toList) then [("rising trend troubleshooting".toList)]
     else if trend = ("decreasing".toList) then [("falling trend troubleshooting".toList)]
     else [])
  List.intercalate ([' ']) parts

/-- Result record of `explain_alarm`. -/
structure ExplainResult where
  summary_from_data : Str
  answer : Str
  citations : List Citation
deriving DecidableEq

/-- The "no data" result of `explain_alarm`. -/
def noDataResult : ExplainResult :=
  { summary_from_data := ("No alarm data available.".toList),
    answer := ("Cannot provide guidance without alarm data.".toList),
    citations := [] }

/-- The "cannot analyze" result of `explain_alarm` for an empty filtered
slice. -/
def cannotAnalyzeResult (tag : Str) : ExplainResult :=
  { summary_from_data := ("No data found for ".toList) ++ tag ++
      (" in the specified time range.".toList),
    answer := ("Cannot analyze - no data available for this tag and time period.".toList),
    citations := [] }

/-- alarms.py `AlarmAnalyzer.explain_alarm`.  A missing alarm file is
`fileData = none`; the search outcome parameterizes the delegated RAG call.
Totality embeds the outer try/except. -/
def explainAlarm (fileData : Option (List AlarmRow))
    (searchOutcome : Except Unit (List SearchResult))
    (tag : Str) (startT endT : Int) : ExplainResult :=
  let df := loadAlarmData fileData
  if df.isEmpty then noDataResult
  else
    let filtered := sliceByTime df tag startT endT
    if filtered.isEmpty then cannotAnalyzeResult tag
    else
      let stats := computeSummaryStats filtered
      let guidance := ask searchOutcome (guidanceQuery tag stats)
      { summary_from_data := formatDataSummary stats tag,
        answer := guidance.answer,
        citations := guidance.citations }

/- ### Claim C9 -/

/-- C9: `ask` and `explain_alarm` always return well-formed result records
(their totality embeds "never propagates an exception"); a missing alarm
file yields the structured "no data" result, an empty filtered slice the
"cannot analyze" result, both with empty citations; a failed search makes
`ask` answer "I don't know" with empty citations. -/
theorem c9_error_handling (fileData : Option (List AlarmRow))
    (so : Except Unit (List SearchResult)) (tag : Str) (startT endT : Int)
    (query : Str) :
    (loadAlarmData fileData = [] →
      explainAlarm fileData so tag startT endT = noDataResult) ∧
    (loadAlarmData fileData ≠ [] →
      sliceByTime (loadAlarmData fileData) tag startT endT = [] →
      explainAlarm fileData so tag startT endT = cannotAnalyzeResult tag) ∧
    noDataResult.citations = [] ∧
    (cannotAnalyzeResult tag).citations = [] ∧
    (∀ e : Unit, ask (Except.error e) query =
      { answer := dontKnowAnswer, citations := [] }) := by
  refine ⟨?_, ?_, rfl, rfl, ?_⟩
  · intro h
    unfold explainAlarm
    rw [if_pos (by rw [List.isEmpty_iff]; exact h)]
  · intro h1 h2
    unfold explainAlarm
    rw [if_neg (by rw [List.isEmpty_iff]; exact h1)]
    dsimp only
    rw [if_pos (by rw [List.isEmpty_iff]; exact h2)]
  · intro e
    rfl

/-- C9 witness input: a single row whose tag does not match the query tag. -/
def c9Row : AlarmRow :=
  { timestamp := 5, tag := ("Temp_101".toList), value := 85, alarm_state := ("OK".toList) }

/-- Witness for `c9_error_handling`: a missing file gives the "no data"
result, and a present file with no matching rows gives "cannot analyze". -/
theorem c9_error_handling_witness :
    (explainAlarm none (Except.ok []) ("Temp_101".toList) 0 10 = noDataResult) ∧
    (loadAlarmData (some [c9Row]) ≠ [] ∧
      sliceByTime (loadAlarmData (some [c9Row])) ("Pressure_202".toList) 0 10 = [] ∧
      explainAlarm (some [c9Row]) (Except.ok []) ("Pressure_202".toList) 0 10 =
        cannotAnalyzeResult ("Pressure_202".toList)) ∧
    ask (Except.error ()) ("any question".toList) =
      { answer := dontKnowAnswer, citations := [] } := by
  refine ⟨?_, ⟨?_, ?_, ?_⟩, ?_⟩
  · exact (c9_error_handling none (Except.ok []) ("Temp_101".toList) 0 10
      ("any question".toList)).1 rfl
  · intro h
    exact absurd h (by decide)
  · decide
  · exact (c9_error_handling (some [c9Row]) (Except.ok []) ("Pressure_202".toList) 0 10
      ("any question".toList)).2.1 (by intro h; exact absurd h (by decide)) (by decide)
  · exact (c9_error_handling (some [c9Row]) (Except.ok []) ("Pressure_202".toList) 0 10
      ("any question".toList)).2.2.2.2 ()
